import Mathlib

/-!
# Verification of the python-igraph high-level layer

A shallow embedding, in Lean 4, of the pure-Python layer of the igraph
package (`src/igraph/__init__.py`): the `Graph.DictList` constructor (batch
and iterative modes), the keyword-predicate grammar of `VertexSeq.select`
and `EdgeSeq.select`, and the attribute broadcast/cycle assignment rules.

Parts of the repository that the Python layer calls but whose code is not
under `src/` (the C `core` module: graph mutation, attribute storage,
positional `select`; and `UniqueIdGenerator` from `igraph.datatypes`) are
modelled from the specification; each such definition carries a doc comment
starting with `Modelled from the spec:`.

Python dicts are embedded as association lists (`List (String × β)`);
iteration follows list order, matching one fixed (deterministic) dict
iteration order.  Python `None` slots in attribute columns are `Option.none`;
record values are drawn from an arbitrary type `V` with decidable equality
(Python values other than `None`).
-/

namespace Igraph

/-- Python exceptions raised by the embedded code.  The spec's error
taxonomy maps onto these: `UniquenessError` and `ConfigurationError` are
both raised as `ValueError` by the source, `LookupError` covers the
key/index errors. -/
inductive PyErr where
  | keyError : String → PyErr
  | valueError : String → PyErr
  | typeError : PyErr
  | attributeError : String → PyErr
  | indexError : PyErr
deriving DecidableEq, Repr

/-- Python dict read `d[k]` / `d.get(k)` on an association list: the value
at the first matching key. -/
def alookup {β : Type} (k : String) : List (String × β) → Option β
  | [] => none
  | (k', v) :: rest => if k' = k then some v else alookup k rest

/-- Python dict write `d[k] = f(d.get(k))` on an association list: replace
the value in place when the key is present, else append the new key at the
end (dict insertion order). -/
def aupd {β : Type} (k : String) (f : Option β → β) : List (String × β) → List (String × β)
  | [] => [(k, f none)]
  | (k', v) :: rest => if k' = k then (k', f (some v)) :: rest else (k', v) :: aupd k f rest

variable {V : Type} [DecidableEq V]

/-- `create_list_from_indices(l, n)` from `Graph.DictList`: a list of `n`
`None` slots, overwritten at position `i` by `v` for each `(i, v)` pair. -/
def create_list_from_indices (l : List (Nat × V)) (n : Nat) : List (Option V) :=
  l.foldl (fun res iv => res.set iv.1 (some iv.2)) (List.replicate n none)

/-- One record's contribution to an attribute accumulator:
`for k, v in data.iteritems(): attrs[k].append((idx, v))`. -/
def accRecord (acc : List (String × List (Nat × V))) (idx : Nat) (r : List (String × V)) :
    List (String × List (Nat × V)) :=
  r.foldl (fun a kv => aupd kv.1 (fun o => o.getD [] ++ [(idx, kv.2)]) a) acc

/-- Accumulate all records, enumerated from 0 (the vertex phase of
`Graph.DictList`). -/
def accRecords (rs : List (List (String × V))) : List (String × List (Nat × V)) :=
  rs.enum.foldl (fun a ir => accRecord a ir.1 ir.2) []

/-- Densify every accumulated attribute into a column of length `n`
(`vertex_attrs[k] = create_list_from_indices(v, n)`). -/
def materialize (acc : List (String × List (Nat × V))) (n : Nat) :
    List (String × List (Option V)) :=
  acc.map (fun kl => (kl.1, create_list_from_indices kl.2 n))

/-- First position of `k` in a list, if present. -/
def posOf {K : Type} [DecidableEq K] (k : K) : List K → Option Nat
  | [] => none
  | x :: xs => if x = k then some 0 else (posOf k xs).map (· + 1)

/-- Modelled from the spec: `UniqueIdGenerator` (igraph.datatypes, not under
`src/`) — "bijection from external name keys to dense ids assigned in
first-seen order; len() = distinct keys seen; lookup of an unseen key
appends and returns a new id"; `values()` lists names in id order.  The
state is the name list indexed by id. -/
structure UniqueIdGen (K : Type) where
  keys : List K
deriving DecidableEq, Repr

/-- Modelled from the spec: generator lookup — return the id of a seen key,
or append an unseen key and return the fresh id. -/
def UniqueIdGen.lookup {K : Type} [DecidableEq K] (g : UniqueIdGen K) (k : K) :
    UniqueIdGen K × Nat :=
  match posOf k g.keys with
  | some i => (g, i)
  | none => (⟨g.keys ++ [k]⟩, g.keys.length)

/-- The graph value assembled by `Graph.DictList`: vertex count, directed
flag, edge list, and the vertex/edge attribute columns (graph-level
attributes are not touched by `DictList` and are omitted). -/
structure PyGraph (V : Type) where
  n : Nat
  directed : Bool
  edges : List (Nat × Nat)
  vattrs : List (String × List (Option V))
  eattrs : List (String × List (Option V))
deriving DecidableEq, Repr

/-- Modelled from the spec: `Graph.add_vertices(k)` (C core, not under
`src/`) — "inserting `k` entities appends `k` null-filled slots to every
column in that scope" and grows `n`. -/
def PyGraph.add_vertices (g : PyGraph V) (k : Nat) : PyGraph V :=
  { g with n := g.n + k,
           vattrs := g.vattrs.map (fun kc => (kc.1, kc.2 ++ List.replicate k none)) }

/-- Modelled from the spec: `g.vs[i][a] = v` (C core, not under `src/`) —
set attribute `a` of the single vertex `i`; a column absent from the store
is created null-filled at the current vertex count first. -/
def PyGraph.setVertexAttr (g : PyGraph V) (i : Nat) (a : String) (v : V) : PyGraph V :=
  { g with vattrs := aupd a (fun o => (o.getD (List.replicate g.n none)).set i (some v)) g.vattrs }

/-- Modelled from the spec: `g.add_edges((v1, v2))` (C core, not under
`src/`) — append one edge and a null slot to every edge attribute column. -/
def PyGraph.add_edge (g : PyGraph V) (e : Nat × Nat) : PyGraph V :=
  { g with edges := g.edges ++ [e],
           eattrs := g.eattrs.map (fun kc => (kc.1, kc.2 ++ [none])) }

/-- Modelled from the spec: `g.es[i][a] = v` (C core, not under `src/`) —
set attribute `a` of the single edge `i`; a column absent from the store is
created null-filled at the current edge count first. -/
def PyGraph.setEdgeAttr (g : PyGraph V) (i : Nat) (a : String) (v : V) : PyGraph V :=
  let upd := fun (o : Option (List (Option V))) =>
    (o.getD (List.replicate g.edges.length none)).set i (some v)
  { g with eattrs := aupd a upd g.eattrs }

/-- `g.es[idx][k] = v` for every key of one edge record, in record order. -/
def PyGraph.setEdgeAttrs (g : PyGraph V) (idx : Nat) (r : List (String × V)) : PyGraph V :=
  r.foldl (fun g kv => g.setEdgeAttr idx kv.1 kv.2) g

/-- The vertex phase shared by both modes of `Graph.DictList`
(`src/igraph/__init__.py:1505-1525`): accumulate and densify the vertex
attribute columns (or start with an empty name column when `vertices` is
falsy), read off the name column (`KeyError` when no record carries the
name key), and check the names for duplicates
(`ValueError("vertex names are not unique")` — the spec's UniquenessError).
Returns the columns, the vertex count and the name column. -/
def vertexPhase (vertices : Option (List (List (String × V)))) (vertex_name_attr : String) :
    Except PyErr (List (String × List (Option V)) × Nat × List (Option V)) :=
  let vlist := vertices.getD []
  let va :=
    if vlist.isEmpty then ([(vertex_name_attr, ([] : List (Option V)))], 0)
    else (materialize (accRecords vlist) vlist.length, vlist.length)
  match alookup vertex_name_attr va.1 with
  | none => .error (.keyError vertex_name_attr)
  | some vertex_names =>
    if vertex_names.Nodup then .ok (va.1, va.2, vertex_names)
    else .error (.valueError "vertex names are not unique")

/-- The batch-mode edge loop of `Graph.DictList`
(`src/igraph/__init__.py:1549-1560`): for each record, resolve the two
foreign keys through the generator (`KeyError` when a key is missing from
the record), collect the edge, and accumulate every key of the record —
including the two foreign keys — into the edge attribute accumulator.
Returns the final generator, edge list, accumulator, and edge count. -/
def batchEdges (efk_src efk_dest : String) :
    List (List (String × V)) → Nat → UniqueIdGen (Option V) → List (Nat × Nat) →
    List (String × List (Nat × V)) →
    Except PyErr (UniqueIdGen (Option V) × List (Nat × Nat) × List (String × List (Nat × V)) × Nat)
  | [], idx, gen, eL, acc => .ok (gen, eL, acc, idx)
  | r :: rest, idx, gen, eL, acc =>
    match alookup efk_src r with
    | none => .error (.keyError efk_src)
    | some s =>
      let g1 := gen.lookup (some s)
      match alookup efk_dest r with
      | none => .error (.keyError efk_dest)
      | some t =>
        let g2 := g1.1.lookup (some t)
        batchEdges efk_src efk_dest rest (idx + 1) g2.1 (eL ++ [(g1.2, g2.2)]) (accRecord acc idx r)

/-- The tail of batch-mode `Graph.DictList` after the edge loop
(`src/igraph/__init__.py:1561-1574`): densify the edge columns; when the
generator grew past the original vertex count, null-extend every vertex
column to the new count and rewrite the name column from the generator's
id order; assemble the graph. -/
def batchFinish (directed : Bool) (vertex_attrs : List (String × List (Option V)))
    (n : Nat) (vertex_name_attr : String)
    (st : UniqueIdGen (Option V) × List (Nat × Nat) × List (String × List (Nat × V)) × Nat) :
    PyGraph V :=
  let gen := st.1
  let edge_attrs := materialize st.2.2.1 st.2.2.2
  let va :=
    if n < gen.keys.length then
      (aupd vertex_name_attr (fun _ => gen.keys)
        (vertex_attrs.map (fun kc => (kc.1, kc.2 ++ List.replicate (gen.keys.length - n) none))),
       gen.keys.length)
    else (vertex_attrs, n)
  ⟨va.2, directed, st.2.1, va.1, edge_attrs⟩

/-- Batch mode of `Graph.DictList` (`iterative=False`,
`src/igraph/__init__.py:1505-1574`): vertex phase, edge loop, then
`batchFinish`. -/
def dictListBatch (vertices : Option (List (List (String × V))))
    (edges : List (List (String × V))) (directed : Bool)
    (vertex_name_attr efk_src efk_dest : String) : Except PyErr (PyGraph V) := do
  let (vertex_attrs, n, vertex_names) ← vertexPhase vertices vertex_name_attr
  let gen0 : UniqueIdGen (Option V) := ⟨vertex_names⟩
  let st ← batchEdges efk_src efk_dest edges 0 gen0 [] []
  return batchFinish directed vertex_attrs n vertex_name_attr st

/-- The iterative-mode edge loop of `Graph.DictList`
(`src/igraph/__init__.py:1529-1547`): for each record, fetch both foreign
keys (left to right, `KeyError` when missing), resolve the source through
the generator — appending a vertex and setting its name when fresh — then
the target likewise, append the edge, and set every key of the record —
including the two foreign keys — as an attribute of the new edge. -/
def iterEdges (efk_src efk_dest vertex_name_attr : String) :
    List (List (String × V)) → Nat → UniqueIdGen (Option V) → Nat → PyGraph V →
    Except PyErr (PyGraph V)
  | [], _, _, _, g => .ok g
  | r :: rest, idx, gen, n, g =>
    match alookup efk_src r with
    | none => .error (.keyError efk_src)
    | some s =>
      match alookup efk_dest r with
      | none => .error (.keyError efk_dest)
      | some t =>
        let g1 := gen.lookup (some s)
        let st1 : PyGraph V × Nat :=
          if g1.2 = n then (((g.add_vertices 1).setVertexAttr n vertex_name_attr s), n + 1)
          else (g, n)
        let g2 := g1.1.lookup (some t)
        let st2 : PyGraph V × Nat :=
          if g2.2 = st1.2 then
            (((st1.1.add_vertices 1).setVertexAttr st1.2 vertex_name_attr t), st1.2 + 1)
          else st1
        let g' := (st2.1.add_edge (g1.2, g2.2)).setEdgeAttrs idx r
        iterEdges efk_src efk_dest vertex_name_attr rest (idx + 1) g2.1 st2.2 g'

/-- Iterative mode of `Graph.DictList` (`iterative=True`,
`src/igraph/__init__.py:1529-1547`): vertex phase, then a live graph grown
edge by edge. -/
def dictListIter (vertices : Option (List (List (String × V))))
    (edges : List (List (String × V))) (directed : Bool)
    (vertex_name_attr efk_src efk_dest : String) : Except PyErr (PyGraph V) := do
  let (vertex_attrs, n, vertex_names) ← vertexPhase vertices vertex_name_attr
  let gen0 : UniqueIdGen (Option V) := ⟨vertex_names⟩
  let g0 : PyGraph V := ⟨n, directed, [], vertex_attrs, []⟩
  iterEdges efk_src efk_dest vertex_name_attr edges 0 gen0 n g0

/-- `Graph.DictList(vertices, edges, directed, vertex_name_attr,
edge_foreign_keys, iterative)` (`src/igraph/__init__.py:1464-1574`). -/
def DictList (vertices : Option (List (List (String × V))))
    (edges : List (List (String × V))) (directed : Bool)
    (vertex_name_attr : String) (edge_foreign_keys : String × String)
    (iterative : Bool) : Except PyErr (PyGraph V) :=
  if iterative then
    dictListIter vertices edges directed vertex_name_attr edge_foreign_keys.1 edge_foreign_keys.2
  else
    dictListBatch vertices edges directed vertex_name_attr edge_foreign_keys.1 edge_foreign_keys.2

/-- Coding view of an `Except` value, to derive decidable equality. -/
def exceptToSum {ε α : Type} : Except ε α → Sum ε α
  | .error e => .inl e
  | .ok a => .inr a

instance {ε α : Type} [DecidableEq ε] [DecidableEq α] : DecidableEq (Except ε α) := fun a b =>
  decidable_of_iff (exceptToSum a = exceptToSum b) (by cases a <;> cases b <;> simp [exceptToSum])

/-! ## The `select` keyword grammar -/

/-- Last index of `'_'` in a character list, if any (Python `str.rindex`). -/
def rindexU : List Char → Option Nat
  | [] => none
  | c :: rest =>
    match rindexU rest with
    | some i => some (i + 1)
    | none => if c = '_' then some 0 else none

/-- The keys of the `operators` dispatch dictionary of `select`
(`src/igraph/__init__.py:2339-2347` and `2589-2597`). -/
def operatorNames : List String := ["lt", "gt", "le", "ge", "eq", "ne", "in", "notin"]

/-- The normalization step of keyword splitting
(`src/igraph/__init__.py:2349`, `2599-2600`): append `"_eq"` when the
keyword has no underscore or its only underscore leads
(`"_" not in keyword or keyword.rindex("_") == 0`). -/
def normalizeKw (cs : List Char) : List Char :=
  match rindexU cs with
  | none => cs ++ "_eq".toList
  | some 0 => cs ++ "_eq".toList
  | some _ => cs

/-- The split of a (normalized) keyword at underscore position `pos`:
attribute before, operator token after; a trailing token that is not a
known operator is folded back into the attribute with operator `eq`
(`src/igraph/__init__.py:2350-2357`). -/
def splitAtPos (cs : List Char) (pos : Nat) : List Char × String :=
  let attr := cs.take pos
  let op := cs.drop (pos + 1)
  if String.mk op ∈ operatorNames then (attr, String.mk op)
  else (attr ++ '_' :: op, "eq")

/-- The keyword-splitting step of `VertexSeq.select`/`EdgeSeq.select`
(`src/igraph/__init__.py:2348-2357`, `2598-2608`): normalize, then split at
the final underscore (present in every normalized keyword). -/
def parseKwChars (cs : List Char) : List Char × String :=
  let cs := normalizeKw cs
  match rindexU cs with
  | some pos => splitAtPos cs pos
  | none => (cs, "eq")

/-- `parseKwChars` on strings. -/
def parseKw (s : String) : String × String :=
  let p := parseKwChars s.toList
  (String.mk p.1, p.2)

/-- Python scalar values flowing through `select` predicates: integers
(also vertex indices) and strings. -/
inductive PyV where
  | pint : Int → PyV
  | pstr : String → PyV
deriving DecidableEq, Repr

/-- One component of a `_between` pair: a plain iterable of values or an
entity sequence (given by its members' absolute indices). -/
inductive SetArg where
  | iter : List PyV → SetArg
  | vseq : List Nat → SetArg
deriving DecidableEq, Repr

/-- Right-hand values of keyword predicates: a scalar, a plain iterable, an
entity sequence, or a tuple of vertex-set arguments (for `_between`). -/
inductive RHS where
  | scalar : PyV → RHS
  | iter : List PyV → RHS
  | vseq : List Nat → RHS
  | tuple : List SetArg → RHS
deriving DecidableEq, Repr

/-- Python `==` on scalars. -/
def pyEqB (a b : PyV) : Bool := decide (a = b)

/-- CPython 2 `<` on scalars: same-type values compare by value; a number
sorts below any non-number. -/
def pyLtB : PyV → PyV → Bool
  | .pint a, .pint b => decide (a < b)
  | .pstr a, .pstr b => decide (a < b)
  | .pint _, .pstr _ => true
  | .pstr _, .pint _ => false

/-- CPython 2 `<` of a scalar against a predicate right-hand value: scalars
compare by `pyLtB`; against a container, numbers sort below everything and
strings sort by type name (`"list" < "str" < "tuple"`, `"VertexSeq" <
"str"`). -/
def pyLtRhsB (a : PyV) (r : RHS) : Bool :=
  match a, r with
  | _, .scalar b => pyLtB a b
  | .pint _, _ => true
  | .pstr _, .iter _ => false
  | .pstr _, .vseq _ => false
  | .pstr _, .tuple _ => true

/-- CPython 2 `>` of a scalar against a predicate right-hand value. -/
def pyGtRhsB (a : PyV) (r : RHS) : Bool :=
  match a, r with
  | _, .scalar b => pyLtB b a
  | .pint _, _ => false
  | .pstr _, .iter _ => true
  | .pstr _, .vseq _ => true
  | .pstr _, .tuple _ => false

/-- Python `==` of a scalar against a predicate right-hand value: a scalar
never equals a container or an entity sequence. -/
def pyEqRhsB (a : PyV) (r : RHS) : Bool :=
  match r with
  | .scalar b => pyEqB a b
  | _ => false

/-- Python `a in b` as `select` evaluates it for literal attributes — on
the right-hand value exactly as given, with no set coercion: membership in
a plain iterable compares the elements to `a`; membership in an entity
sequence compares `a` against `Vertex`/`Edge` objects, which never equal a
plain value; `in` on a scalar raises `TypeError` and on a tuple of id lists
compares a scalar against lists (modelled as `false`). -/
def pyInB (a : PyV) : RHS → Bool
  | .iter l => l.any (fun x => pyEqB x a)
  | .vseq _ => false
  | .scalar _ => false
  | .tuple _ => false

/-- The `operators` dispatch table of `select`
(`src/igraph/__init__.py:2339-2347`, `2589-2597`), applied element-wise as
`func(v, value)`. -/
def applyOp (op : String) (a : PyV) (rhs : RHS) : Bool :=
  if op = "lt" then pyLtRhsB a rhs
  else if op = "gt" then pyGtRhsB a rhs
  else if op = "le" then !pyGtRhsB a rhs
  else if op = "ge" then !pyLtRhsB a rhs
  else if op = "eq" then pyEqRhsB a rhs
  else if op = "ne" then !pyEqRhsB a rhs
  else if op = "in" then pyInB a rhs
  else if op = "notin" then !pyInB a rhs
  else false

/-- `_ensure_set` (`src/igraph/__init__.py:2582-2587`): a `VertexSeq`
becomes the set of its members' absolute indices, any other iterable
becomes the set of its elements; `set()` of a non-iterable scalar, or of a
tuple of (unhashable) id lists, raises `TypeError`.  Sets are modelled as
lists queried by membership. -/
def ensureSet : RHS → Except PyErr (List PyV)
  | .vseq idxs => .ok (idxs.map (fun i => PyV.pint i))
  | .iter l => .ok l
  | .scalar _ => .error .typeError
  | .tuple _ => .error .typeError

/-- `_ensure_set` on one `_between` component (always an iterable or an
entity sequence). -/
def ensureSetArg : SetArg → List PyV
  | .iter l => l
  | .vseq idxs => idxs.map (fun i => PyV.pint i)

/-- `[i for i, v in enumerate(values) if keep v]`. -/
def filterPositions {α : Type} (values : List α) (keep : α → Bool) : List Nat :=
  (values.enum.filter (fun p => keep p.2)).map Prod.fst

/-- Modelled from the spec: `core.VertexSeq.select` / `core.EdgeSeq.select`
with one iterable-of-integers argument (C core, not under `src/`) — the
integers are relative indices into the current sequence, out of range is a
LookupError; with no argument the core select returns a copy of the same
sequence (spec §8 identity law), so the keyword loop starts from the
receiver's own index list. -/
def coreSelect (idxs : List Nat) : List Nat → Except PyErr (List Nat)
  | [] => .ok []
  | r :: rest =>
    if h : r < idxs.length then
      match coreSelect idxs rest with
      | .ok out => .ok (idxs.get ⟨r, h⟩ :: out)
      | .error e => .error e
    else .error .indexError

/-- The graph data visible to `select`: vertex count, edges with their
endpoints, vertex/edge attribute columns of scalars, and the zero-argument
graph methods that reserved-marker predicates delegate to (`none` models a
name the graph does not provide — an AttributeError; the spec's
DelegationError). -/
structure SelGraph where
  nV : Nat
  edges : List (Nat × Nat)
  vattrcols : List (String × List PyV)
  eattrcols : List (String × List PyV)
  vmethods : String → List Nat → Option (List PyV)
  emethods : String → List Nat → Option (List PyV)

/-- Modelled from the spec: `vs[attr]` / `es[attr]` (C core, not under
`src/`) — "returns values for exactly the sequence's entities, in sequence
order"; an unknown attribute name is a KeyError.  Indices of a live
sequence are always in range; an out-of-range slot reads as `pint 0`
(unreachable for sequences drawn from the graph). -/
def seqAttrValues (cols : List (String × List PyV)) (idxs : List Nat) (attr : String) :
    Except PyErr (List PyV) :=
  match alookup attr cols with
  | none => .error (.keyError attr)
  | some col => .ok (idxs.map (fun i => col.getD i (PyV.pint 0)))

/-- Source endpoint of edge `i` (`e.source`). -/
def srcOf (g : SelGraph) (i : Nat) : Nat := (g.edges.getD i (0, 0)).1

/-- Target endpoint of edge `i` (`e.target`). -/
def tgtOf (g : SelGraph) (i : Nat) : Nat := (g.edges.getD i (0, 0)).2

/-- One keyword predicate of `VertexSeq.select`
(`src/igraph/__init__.py:2348-2365`): parse the keyword, resolve the values
— a delegated graph method for a reserved-marker attribute, else a literal
column over the current sequence — filter by the operator applied
element-wise (the right-hand value is used exactly as given: no set
coercion anywhere in `VertexSeq.select`), and narrow the sequence by the
surviving relative indices. -/
def vsApplyKw (g : SelGraph) (idxs : List Nat) (kw : String) (rhs : RHS) :
    Except PyErr (List Nat) := do
  let p := parseKw kw
  let values ←
    if p.1.toList.head? = some '_' then
      match g.vmethods (p.1.drop 1) idxs with
      | some vals => Except.ok vals
      | none => Except.error (.attributeError (p.1.drop 1))
    else seqAttrValues g.vattrcols idxs p.1
  coreSelect idxs (filterPositions values (fun v => applyOp p.2 v rhs))

/-- The keyword loop of `VertexSeq.select`: predicates narrow the sequence
cumulatively, in the given order. -/
def vsSelectKws (g : SelGraph) (idxs : List Nat) (kwds : List (String × RHS)) :
    Except PyErr (List Nat) :=
  kwds.foldlM (fun cur p => vsApplyKw g cur p.1 p.2) idxs

/-- One keyword predicate of `EdgeSeq.select`
(`src/igraph/__init__.py:2598-2643`): parse the keyword; `_source`/`_from`
and `_target`/`_to` read endpoint indices and coerce the right-hand value
through `_ensure_set` when the operator is `in`/`notin`; `_within` and
`_between` coerce their vertex sets and ignore the operator, `_between`
demanding exactly two sets; any other reserved-marker name delegates to a
graph method; a plain name reads a literal column, with the right-hand
value used exactly as given. -/
def esApplyKw (g : SelGraph) (idxs : List Nat) (kw : String) (rhs : RHS) :
    Except PyErr (List Nat) := do
  let p := parseKw kw
  let attr := p.1
  let op := p.2
  if attr = "_source" ∨ attr = "_from" then
    let values := idxs.map (fun i => srcOf g i)
    let rhs' ← if op = "in" ∨ op = "notin" then (ensureSet rhs).map RHS.iter else Except.ok rhs
    coreSelect idxs (filterPositions values (fun v => applyOp op (.pint v) rhs'))
  else if attr = "_target" ∨ attr = "_to" then
    let values := idxs.map (fun i => tgtOf g i)
    let rhs' ← if op = "in" ∨ op = "notin" then (ensureSet rhs).map RHS.iter else Except.ok rhs
    coreSelect idxs (filterPositions values (fun v => applyOp op (.pint v) rhs'))
  else if attr = "_within" then
    let s ← ensureSet rhs
    let mem := fun v => s.any (fun x => pyEqB x (.pint v))
    coreSelect idxs (filterPositions (idxs.map (fun i => (srcOf g i, tgtOf g i)))
      (fun e => mem e.1 && mem e.2))
  else if attr = "_between" then
    match rhs with
    | .tuple comps =>
      if comps.length ≠ 2 then
        Except.error (.valueError "_between selector requires two vertex ID lists")
      else
        let set1 := ensureSetArg (comps.getD 0 (.iter []))
        let set2 := ensureSetArg (comps.getD 1 (.iter []))
        let mem := fun (s : List PyV) (v : Nat) => s.any (fun x => pyEqB x (.pint v))
        coreSelect idxs (filterPositions (idxs.map (fun i => (srcOf g i, tgtOf g i)))
          (fun e => (mem set1 e.1 && mem set2 e.2) || (mem set2 e.1 && mem set1 e.2)))
    | _ => Except.error .typeError
  else if attr.toList.head? = some '_' then
    match g.emethods (attr.drop 1) idxs with
    | some values => coreSelect idxs (filterPositions values (fun v => applyOp op v rhs))
    | none => Except.error (.attributeError (attr.drop 1))
  else
    do
    let values ← seqAttrValues g.eattrcols idxs attr
    coreSelect idxs (filterPositions values (fun v => applyOp op v rhs))

/-- The keyword loop of `EdgeSeq.select`. -/
def esSelectKws (g : SelGraph) (idxs : List Nat) (kwds : List (String × RHS)) :
    Except PyErr (List Nat) :=
  kwds.foldlM (fun cur p => esApplyKw g cur p.1 p.2) idxs

/-! ## Attribute assignment (broadcast and cycling) -/

/-- Modelled from the spec: the right-hand side of an attribute assignment
through a collection — "a scalar (or a string, treated as atomic)" or a
value sequence. -/
inductive AssignVal (V : Type) where
  | scalar : V → AssignVal V
  | seq : List V → AssignVal V

/-- Modelled from the spec: attribute assignment through a collection of
`n` entities (C core attribute store, not under `src/`) — "a scalar (or a
string, treated as atomic) is broadcast to every entity in the current
scope; a sequence shorter than the scope length is cyclically repeated
until it fills the scope (reuse semantics); a sequence longer than scope
length is a length-mismatch error".  An empty sequence cannot fill a
non-empty scope and is likewise an error. -/
def assignColumn (n : Nat) : AssignVal V → Except PyErr (List V)
  | .scalar v => .ok (List.replicate n v)
  | .seq [] => if n = 0 then .ok [] else .error (.valueError "length mismatch")
  | .seq (v :: vs) =>
    if n < (v :: vs).length then .error (.valueError "length mismatch")
    else .ok ((List.range n).map (fun i => (v :: vs).getD (i % (v :: vs).length) v))

/-! ## First-seen order -/

/-- Append `k` unless already present: one step of first-seen
de-duplication. -/
def seenInsert {K : Type} [DecidableEq K] (acc : List K) (k : K) : List K :=
  if k ∈ acc then acc else acc ++ [k]

/-- The distinct elements of `l` in order of first appearance. -/
def firstSeen {K : Type} [DecidableEq K] (l : List K) : List K :=
  l.foldl seenInsert []

/-! ## Claim-side comparison definitions and concrete example data -/

/-- The behavior claim C4 ascribes to every `in`/`notin` predicate, written
from the spec's words for comparison with the code's `vsApplyKw`: identical
to one keyword predicate of `VertexSeq.select` except that the right-hand
value of an `in`/`notin` predicate is coerced to a set (`_ensure_set`, an
entity sequence becoming its absolute-index set) before the element-wise
membership test. -/
def vsApplyKwCoerced (g : SelGraph) (idxs : List Nat) (kw : String) (rhs : RHS) :
    Except PyErr (List Nat) := do
  let p := parseKw kw
  let values ←
    if p.1.toList.head? = some '_' then
      match g.vmethods (p.1.drop 1) idxs with
      | some vals => Except.ok vals
      | none => Except.error (.attributeError (p.1.drop 1))
    else seqAttrValues g.vattrcols idxs p.1
  let rhs' ← if p.2 = "in" ∨ p.2 = "notin" then (ensureSet rhs).map RHS.iter else Except.ok rhs
  coreSelect idxs (filterPositions values (fun v => applyOp p.2 v rhs'))

/-- The iterative-mode graph state after a prefix of the edge records,
expressed from the batch-mode accumulator state: vertex count from the
generator, the base vertex columns null-extended to the generator length
with the name column rewritten from the generator's id order, and the edge
columns densified at the current edge count.  The induction invariant of
the batch/iterative equivalence proof. -/
def partialAssemble (directed : Bool) (baseV : List (String × List (Option V)))
    (nbase : Nat) (vertex_name_attr : String) (gen : UniqueIdGen (Option V))
    (eL : List (Nat × Nat)) (eacc : List (String × List (Nat × V))) (idx : Nat) : PyGraph V :=
  ⟨gen.keys.length, directed, eL,
   aupd vertex_name_attr (fun _ => gen.keys)
     (baseV.map (fun kc => (kc.1, kc.2 ++ List.replicate (gen.keys.length - nbase) none))),
   materialize eacc idx⟩

/-- Membership of a vertex index in a coerced vertex set (Python
`v in set`, the set's elements compared to the index by value). -/
def memB (s : List PyV) (v : Nat) : Bool :=
  s.any (fun x => pyEqB x (.pint v))

/-- The stream of endpoint names consulted by the `DictList` edge loop:
for each record its source then its target value, in record order. -/
def endpointStream (efk_src efk_dest : String) (rs : List (List (String × V))) :
    List (Option V) :=
  rs.foldr (fun r acc => alookup efk_src r :: alookup efk_dest r :: acc) []

/-- Edge record naming endpoints `("a", "b")` (claim C8's example). -/
def recAB : List (String × String) := [("source", "a"), ("target", "b")]

/-- Edge record naming endpoints `("a", "c")` (claim C8's example). -/
def recAC : List (String × String) := [("source", "a"), ("target", "c")]

/-- Edge record naming endpoints `("a", "c")` with one extra attribute key
`"w"` (claim C5's counterexample input). -/
def recACW : List (String × String) := [("source", "a"), ("target", "c"), ("w", "1")]

/-- The graph `Graph.DictList(None, [recAB, recAC])` constructs: vertices
`a, b, c` discovered lazily from the edge endpoints, edges `(0,1),(0,2)`,
and the endpoint keys stored as edge attribute columns. -/
def dlExampleGraph : PyGraph String :=
  ⟨3, false, [(0, 1), (0, 2)],
   [("name", [some "a", some "b", some "c"])],
   [("source", [some "a", some "a"]), ("target", [some "b", some "c"])]⟩

/-- The graph `Graph.DictList(None, [recACW])` constructs: both endpoint
foreign keys appear as edge attribute columns alongside `"w"`. -/
def dlCEGraph : PyGraph String :=
  ⟨2, false, [(0, 1)], [("name", [some "a", some "c"])],
   [("source", [some "a"]), ("target", [some "c"]), ("w", [some "1"])]⟩

/-- A one-vertex graph whose vertex attribute `age` holds the integer 0
(claim C4's counterexample input). -/
def ageGraph : SelGraph :=
  ⟨1, [], [("age", [.pint 0])], [], fun _ _ => none, fun _ _ => none⟩

/-- The spec §8 example graph — 4 vertices, edges
`(0,1),(1,2),(2,3),(0,3)` — with a vertex attribute `age` and an edge
attribute `w` for concrete predicate evaluations. -/
def pathGraph : SelGraph :=
  ⟨4, [(0, 1), (1, 2), (2, 3), (0, 3)],
   [("age", [.pint 1, .pint 2, .pint 3, .pint 4])],
   [("w", [.pint 1, .pint 2, .pint 3, .pint 4])],
   fun _ _ => none, fun _ _ => none⟩

/-! ## Supporting lemmas: association lists -/

theorem alookup_aupd {β : Type} (k k' : String) (f : Option β → β) (l : List (String × β)) :
    alookup k (aupd k' f l) = if k' = k then some (f (alookup k l)) else alookup k l := by
  induction l with
  | nil => by_cases h : k' = k <;> simp [alookup, aupd, h]
  | cons p rest ih =>
    obtain ⟨k1, v1⟩ := p
    by_cases h1 : k1 = k'
    · subst h1
      by_cases h : k1 = k <;> simp [alookup, aupd, h]
    · by_cases h : k1 = k
      · subst h
        have hk : ¬(k1 = k1 → False) := by simp
        simp [alookup, aupd, h1, Ne.symm h1]
      · simp [alookup, aupd, h1, h, ih]

theorem aupd_self {β : Type} (k : String) (c : β) (l : List (String × β))
    (h : alookup k l = some c) : aupd k (fun _ => c) l = l := by
  induction l with
  | nil => simp [alookup] at h
  | cons p rest ih =>
    obtain ⟨k1, v1⟩ := p
    by_cases h1 : k1 = k
    · subst h1
      simp [alookup] at h
      simp [aupd, h]
    · simp [alookup, h1] at h
      simp [aupd, h1, ih h]

/-! ## Supporting lemmas: dense columns from index-value pairs -/

theorem foldl_set_append (l : List (Nat × V)) (init tail : List (Option V))
    (h : ∀ p ∈ l, p.1 < init.length) :
    l.foldl (fun res iv => res.set iv.1 (some iv.2)) (init ++ tail)
      = l.foldl (fun res iv => res.set iv.1 (some iv.2)) init ++ tail := by
  induction l generalizing init with
  | nil => rfl
  | cons p rest ih =>
    simp only [List.foldl_cons]
    rw [List.set_append_left _ _ (h p (List.mem_cons_self p rest))]
    exact ih _ (fun q hq => by
      rw [List.length_set]; exact h q (List.mem_cons_of_mem p hq))

theorem create_list_length (l : List (Nat × V)) (n : Nat) :
    (create_list_from_indices l n).length = n := by
  unfold create_list_from_indices
  have : ∀ (l : List (Nat × V)) (init : List (Option V)),
      (l.foldl (fun res iv => res.set iv.1 (some iv.2)) init).length = init.length := by
    intro l
    induction l with
    | nil => intro init; rfl
    | cons p rest ih => intro init; simp [List.foldl_cons, ih, List.length_set]
  rw [this, List.length_replicate]

theorem create_list_succ (l : List (Nat × V)) (n : Nat) (h : ∀ p ∈ l, p.1 < n) :
    create_list_from_indices l (n + 1) = create_list_from_indices l n ++ [none] := by
  unfold create_list_from_indices
  rw [List.replicate_succ', foldl_set_append]
  intro p hp
  rw [List.length_replicate]
  exact h p hp

theorem create_list_snoc (l : List (Nat × V)) (p : Nat × V) (n : Nat) :
    create_list_from_indices (l ++ [p]) n
      = (create_list_from_indices l n).set p.1 (some p.2) := by
  unfold create_list_from_indices
  rw [List.foldl_append]
  rfl

/-! ## Supporting lemmas: the unique id generator -/

theorem posOf_none_iff {K : Type} [DecidableEq K] (k : K) (l : List K) :
    posOf k l = none ↔ k ∉ l := by
  induction l with
  | nil => simp [posOf]
  | cons x xs ih =>
    by_cases h : x = k
    · subst h; simp [posOf]
    · have hne : k ≠ x := fun hc => h hc.symm
      simp [posOf, h, hne, Option.map_eq_none', ih]

theorem posOf_lt_length {K : Type} [DecidableEq K] (k : K) (l : List K) (i : Nat)
    (h : posOf k l = some i) : i < l.length := by
  induction l generalizing i with
  | nil => simp [posOf] at h
  | cons x xs ih =>
    by_cases hx : x = k
    · subst hx
      simp [posOf] at h
      simp [List.length_cons]
      omega
    · rw [posOf, if_neg hx] at h
      cases hp : posOf k xs with
      | none => rw [hp] at h; simp at h
      | some j =>
        rw [hp] at h
        simp at h
        have hj := ih j hp
        simp only [List.length_cons]
        omega

theorem uig_lookup_keys {K : Type} [DecidableEq K] (g : UniqueIdGen K) (k : K) :
    (g.lookup k).1.keys = seenInsert g.keys k := by
  unfold UniqueIdGen.lookup seenInsert
  cases hp : posOf k g.keys with
  | none =>
    have : k ∉ g.keys := (posOf_none_iff k g.keys).mp hp
    simp [this]
  | some i =>
    have : k ∈ g.keys := by
      by_contra hc
      rw [← posOf_none_iff k g.keys] at hc
      rw [hc] at hp
      exact absurd hp (by simp)
    simp [this]

theorem uig_lookup_fresh_iff {K : Type} [DecidableEq K] (g : UniqueIdGen K) (k : K) :
    (g.lookup k).2 = g.keys.length ↔ k ∉ g.keys := by
  unfold UniqueIdGen.lookup
  cases hp : posOf k g.keys with
  | none => simp [(posOf_none_iff k g.keys).mp hp]
  | some i =>
    have hi := posOf_lt_length k g.keys i hp
    have hm : k ∈ g.keys := by
      by_contra hc
      rw [← posOf_none_iff k g.keys] at hc
      rw [hc] at hp
      exact absurd hp (by simp)
    simp [hm]
    omega

/-! ## Supporting lemmas: position filtering and relative-index selection -/

theorem filterPositions_map {α β : Type} (l : List α) (f : α → β) (keep : β → Bool) :
    filterPositions (l.map f) keep = filterPositions l (fun a => keep (f a)) := by
  unfold filterPositions
  rw [List.enum_map, List.filter_map, List.map_map]
  rfl

theorem coreSelect_enumFrom_filter (q : Nat → Bool) (idxs : List Nat) :
    ∀ pre : List Nat,
      coreSelect (pre ++ idxs)
        (((idxs.enumFrom pre.length).filter (fun p => q p.2)).map Prod.fst)
        = .ok (idxs.filter q) := by
  induction idxs with
  | nil => intro pre; rfl
  | cons a rest ih =>
    intro pre
    have hlt : pre.length < (pre ++ a :: rest).length := by simp
    have hmid : (pre ++ a :: rest)[pre.length] = a := by
      rw [List.getElem_append_right (Nat.le_refl _)]
      simp
    have ihk := ih (pre ++ [a])
    rw [List.append_assoc, List.singleton_append, List.length_append,
      List.length_singleton] at ihk
    rw [List.enumFrom_cons]
    by_cases hq : q a
    · rw [List.filter_cons_of_pos (by simpa using hq), List.map_cons]
      rw [coreSelect, dif_pos hlt, ihk]
      simp [List.filter_cons_of_pos, hq, hmid]
    · rw [List.filter_cons_of_neg (by simpa using hq), ihk,
        List.filter_cons_of_neg (by simpa using hq)]

theorem coreSelect_filterPositions (idxs : List Nat) (q : Nat → Bool) :
    coreSelect idxs (filterPositions idxs q) = .ok (idxs.filter q) := by
  have h := coreSelect_enumFrom_filter q idxs []
  simpa [filterPositions, List.enum] using h

theorem coreSelect_filterPositions_map {α : Type} (idxs : List Nat) (f : Nat → α)
    (keep : α → Bool) :
    coreSelect idxs (filterPositions (idxs.map f) keep)
      = .ok (idxs.filter (fun i => keep (f i))) := by
  rw [filterPositions_map]
  exact coreSelect_filterPositions idxs _

theorem filterPositions_pairwise {α : Type} (values : List α) (keep : α → Bool) :
    (filterPositions values keep).Pairwise (· < ·) := by
  unfold filterPositions
  have hsub : List.Sublist ((values.enum.filter (fun p => keep p.2)).map Prod.fst)
      (values.enum.map Prod.fst) := (List.filter_sublist _).map Prod.fst
  rw [List.enum_map_fst] at hsub
  exact (List.pairwise_lt_range _).sublist hsub

theorem coreSelect_ok_char (idxs : List Nat) :
    ∀ (rel out : List Nat), coreSelect idxs rel = .ok out →
      (∀ r ∈ rel, r < idxs.length) ∧ out = rel.map (fun r => idxs.getD r 0) := by
  intro rel
  induction rel with
  | nil =>
    intro out h
    rw [coreSelect] at h
    cases h
    simp
  | cons r rest ih =>
    intro out h
    rw [coreSelect] at h
    by_cases hr : r < idxs.length
    · rw [dif_pos hr] at h
      cases hrec : coreSelect idxs rest with
      | ok out' =>
        rw [hrec] at h
        cases h
        obtain ⟨hb, hout⟩ := ih out' hrec
        refine ⟨?_, ?_⟩
        · intro x hx
          rcases List.mem_cons.mp hx with hx | hx
          · rw [hx]; exact hr
          · exact hb x hx
        · rw [List.map_cons, ← hout, List.get_eq_getElem, List.getD_eq_getElem _ _ hr]
      | error e => rw [hrec] at h; cases h
    · rw [dif_neg hr] at h
      cases h

theorem coreSelect_ok_sublist (idxs rel out : List Nat) (hrel : rel.Pairwise (· < ·))
    (h : coreSelect idxs rel = .ok out) : List.Sublist out idxs := by
  obtain ⟨hb, hout⟩ := coreSelect_ok_char idxs rel out h
  have hfin : (rel.pmap (fun r hh => (⟨r, hh⟩ : Fin idxs.length)) hb).Pairwise (· < ·) :=
    List.Pairwise.pmap hrel hb (fun a _ b _ hab => hab)
  have hsub := List.map_getElem_sublist (l := idxs) hfin
  have heq : (rel.pmap (fun r hh => (⟨r, hh⟩ : Fin idxs.length)) hb).map
      (fun i => idxs[i]) = rel.map (fun r => idxs.getD r 0) := by
    rw [List.map_pmap]
    have hc : rel.pmap (fun a h => idxs[(⟨a, h⟩ : Fin idxs.length)]) hb
        = rel.pmap (fun (a : Nat) _ => idxs.getD a 0) hb := by
      apply List.pmap_congr_left
      intro a _ h1 _
      rw [List.getD_eq_getElem idxs 0 h1]
      rfl
    rw [hc]
    exact List.pmap_eq_map _ _ rel hb
  rw [heq] at hsub
  rw [hout]
  exact hsub

/-! ## Supporting lemmas: keyword splitting -/

theorem rindexU_none_iff (cs : List Char) : rindexU cs = none ↔ '_' ∉ cs := by
  induction cs with
  | nil => simp [rindexU]
  | cons c rest ih =>
    rw [rindexU]
    cases hr : rindexU rest with
    | some i =>
      have hm : '_' ∈ rest := by
        by_contra hc
        rw [← ih] at hc
        rw [hc] at hr
        exact absurd hr (by simp)
      simp [hm]
    | none =>
      have hnr : '_' ∉ rest := ih.mp hr
      by_cases hc : c = '_'
      · subst hc; simp
      · have hcc : ¬('_' = c) := fun h => hc h.symm
        simp [hc, hnr, hcc]

theorem rindexU_append_last (a t : List Char) (ht : '_' ∉ t) :
    rindexU (a ++ '_' :: t) = some a.length := by
  induction a with
  | nil =>
    rw [List.nil_append, rindexU,
      show rindexU t = none from (rindexU_none_iff t).mpr ht]
    simp
  | cons c a' ih =>
    rw [List.cons_append, rindexU, ih]
    simp

theorem take_append_cons (a t : List Char) (c : Char) :
    (a ++ c :: t).take a.length = a :=
  List.take_left a (c :: t)

theorem drop_append_cons (a t : List Char) (c : Char) :
    (a ++ c :: t).drop (a.length + 1) = t := by
  rw [show a ++ c :: t = (a ++ [c]) ++ t by simp,
    show a.length + 1 = (a ++ [c]).length by simp]
  exact List.drop_left _ _

theorem normalizeKw_of_pos (cs : List Char) (pos : Nat)
    (h : rindexU cs = some (pos + 1)) : normalizeKw cs = cs := by
  unfold normalizeKw
  rw [h]
  exact rfl

theorem parseKwChars_eq_split (cs : List Char) (pos : Nat)
    (h : rindexU (normalizeKw cs) = some pos) :
    parseKwChars cs = splitAtPos (normalizeKw cs) pos := by
  have hz : parseKwChars cs
      = (match rindexU (normalizeKw cs) with
         | some pos => splitAtPos (normalizeKw cs) pos
         | none => (normalizeKw cs, "eq")) := rfl
  rw [hz, h]

theorem parseKwChars_final_underscore (a t : List Char) (ht : '_' ∉ t) (ha : a ≠ []) :
    parseKwChars (a ++ '_' :: t)
      = (if String.mk t ∈ operatorNames then (a, String.mk t)
         else (a ++ '_' :: t, "eq")) := by
  obtain ⟨c, a', rfl⟩ : ∃ c a', a = c :: a' := by
    cases a with
    | nil => exact absurd rfl ha
    | cons c a' => exact ⟨c, a', rfl⟩
  have hr : rindexU ((c :: a') ++ '_' :: t) = some (a'.length + 1) := by
    rw [rindexU_append_last _ t ht]
    simp
  have hnorm := normalizeKw_of_pos _ _ hr
  have h2 : rindexU (normalizeKw ((c :: a') ++ '_' :: t)) = some (a'.length + 1) := by
    rw [hnorm]; exact hr
  rw [parseKwChars_eq_split _ _ h2, hnorm]
  simp only [splitAtPos]
  rw [show a'.length + 1 + 1 = (c :: a').length + 1 by simp]
  rw [drop_append_cons]
  rw [show a'.length + 1 = (c :: a').length by simp, take_append_cons]

theorem parseKwChars_no_underscore (cs : List Char) (h : '_' ∉ cs) :
    parseKwChars cs = (cs, "eq") := by
  have heq : ("_eq".toList : List Char) = '_' :: "eq".toList := by decide
  have hr0 : rindexU cs = none := (rindexU_none_iff cs).mpr h
  have hnorm : normalizeKw cs = cs ++ "_eq".toList := by
    unfold normalizeKw
    rw [hr0]
  have hr : rindexU (normalizeKw cs) = some cs.length := by
    rw [hnorm, heq]
    exact rindexU_append_last cs _ (by decide)
  rw [parseKwChars_eq_split _ _ hr, hnorm, heq]
  simp only [splitAtPos]
  rw [drop_append_cons, take_append_cons]
  have hop : (String.mk "eq".toList ∈ operatorNames) := by decide
  rw [if_pos hop]
  have heqs : String.mk "eq".toList = "eq" := by decide
  rw [heqs]

theorem parseKwChars_only_leading (t : List Char) (ht : '_' ∉ t) :
    parseKwChars ('_' :: t) = ('_' :: t, "eq") := by
  have heq : ("_eq".toList : List Char) = '_' :: "eq".toList := by decide
  have hr0 : rindexU ('_' :: t) = some 0 := by
    have := rindexU_append_last [] t ht
    simpa using this
  have hnorm : normalizeKw ('_' :: t) = ('_' :: t) ++ "_eq".toList := by
    unfold normalizeKw
    rw [hr0]
  have hr : rindexU (normalizeKw ('_' :: t)) = some ('_' :: t).length := by
    rw [hnorm, heq]
    exact rindexU_append_last _ _ (by decide)
  rw [parseKwChars_eq_split _ _ hr, hnorm, heq]
  simp only [splitAtPos]
  rw [drop_append_cons, take_append_cons]
  have hop : (String.mk "eq".toList ∈ operatorNames) := by decide
  rw [if_pos hop]
  have heqs : String.mk "eq".toList = "eq" := by decide
  rw [heqs]

/-- **C3.** Keyword predicate names are split at the final underscore; the
trailing token is the operator only when it is one of the eight operator
names; otherwise — including a keyword with no underscore, one whose only
underscore is the leading reserved marker, and one whose trailing token
merely resembles an operator — the operator is `eq` and the entire keyword
is the attribute. -/
theorem select_keyword_split (cs : List Char) :
    ('_' ∉ cs → parseKwChars cs = (cs, "eq")) ∧
    (∀ t, cs = '_' :: t → '_' ∉ t → parseKwChars cs = (cs, "eq")) ∧
    (∀ a t, cs = a ++ '_' :: t → '_' ∉ t → a ≠ [] →
      (String.mk t ∈ operatorNames → parseKwChars cs = (a, String.mk t)) ∧
      (String.mk t ∉ operatorNames → parseKwChars cs = (cs, "eq"))) := by
  refine ⟨fun h => parseKwChars_no_underscore cs h, ?_, ?_⟩
  · intro t hcs ht
    subst hcs
    exact parseKwChars_only_leading t ht
  · intro a t hcs ht ha
    subst hcs
    constructor
    · intro hop
      rw [parseKwChars_final_underscore a t ht ha, if_pos hop]
    · intro hop
      rw [parseKwChars_final_underscore a t ht ha, if_neg hop]

/-- Witness for C3 at concrete keywords: `"age_gt"` splits into the
attribute `"age"` and operator `"gt"`; `"foo_bar"` has a non-operator
trailing token and stays whole with operator `eq`; `"age"` has no
underscore; `"_degree"` has only the leading marker underscore. -/
theorem select_keyword_split_witness :
    parseKwChars "age_gt".toList = ("age".toList, "gt") ∧
    parseKwChars "foo_bar".toList = ("foo_bar".toList, "eq") ∧
    parseKwChars "age".toList = ("age".toList, "eq") ∧
    parseKwChars "_degree".toList = ("_degree".toList, "eq") := by
  refine ⟨?_, ?_, ?_, ?_⟩
  · have h := ((select_keyword_split "age_gt".toList).2.2 "age".toList "gt".toList
      (by decide) (by decide) (by decide)).1 (by decide)
    rw [h]
    decide
  · have h := ((select_keyword_split "foo_bar".toList).2.2 "foo".toList "bar".toList
      (by decide) (by decide) (by decide)).2 (by decide)
    rw [h]
  · exact (select_keyword_split "age".toList).1 (by decide)
  · exact (select_keyword_split "_degree".toList).2.1 "degree".toList (by decide) (by decide)

/-! ## Claim C2: broadcast and cycling -/

/-- **C2.** Attribute assignment through an entity collection broadcasts a
scalar to every entity in scope; a nonempty value sequence no longer than
the scope is cyclically repeated until it fills the scope; in particular a
two-element sequence assigned to a 7-entity collection yields
`[a, b, a, b, a, b, a]`. -/
theorem assign_broadcast_cycle (n : Nat) (c : V) (vs : List V) (a b : V)
    (hvs : vs ≠ []) (hlen : vs.length ≤ n) :
    assignColumn n (.scalar c) = .ok (List.replicate n c) ∧
    (∃ col, assignColumn n (.seq vs) = .ok col ∧ col.length = n ∧
      ∀ i, i < n → col.getD i c = vs.getD (i % vs.length) c) ∧
    assignColumn 7 (.seq [a, b]) = .ok [a, b, a, b, a, b, a] := by
  refine ⟨rfl, ?_, ?_⟩
  · obtain ⟨v0, vs', rfl⟩ : ∃ v0 vs', vs = v0 :: vs' := by
      cases vs with
      | nil => exact absurd rfl hvs
      | cons v0 vs' => exact ⟨v0, vs', rfl⟩
    rw [assignColumn, if_neg (by omega)]
    refine ⟨_, rfl, by simp, ?_⟩
    intro i hi
    have hmod : i % (v0 :: vs').length < (v0 :: vs').length :=
      Nat.mod_lt i (by simp)
    have hil : i < ((List.range n).map
        (fun i => (v0 :: vs').getD (i % (v0 :: vs').length) v0)).length := by
      simp [hi]
    rw [List.getD_eq_getElem _ _ hil]
    rw [List.getElem_map, List.getElem_range]
    rw [List.getD_eq_getElem _ _ hmod, List.getD_eq_getElem _ _ hmod]
  · norm_num [assignColumn, List.range_succ]

/-- Witness for C2 at `V = String`, scope 7, values `["a", "b"]`. -/
theorem assign_broadcast_cycle_witness :
    assignColumn 7 (AssignVal.scalar "c") = .ok (List.replicate 7 "c") ∧
    (∃ col, assignColumn 7 (AssignVal.seq ["a", "b"]) = .ok col ∧ col.length = 7 ∧
      ∀ i, i < 7 → col.getD i "c" = ["a", "b"].getD (i % 2) "c") ∧
    assignColumn 7 (AssignVal.seq ["x", "y"]) = .ok ["x", "y", "x", "y", "x", "y", "x"] :=
  assign_broadcast_cycle 7 "c" ["a", "b"] "x" "y" (by decide) (by decide)

/-! ## Supporting lemmas: unfolding one `select` predicate -/

theorem except_bind_ok {ε α β : Type} (a : α) (f : α → Except ε β) :
    (Except.ok a >>= f) = f a := rfl

theorem except_bind_error {ε α β : Type} (e : ε) (f : α → Except ε β) :
    ((Except.error e : Except ε α) >>= f) = Except.error e := rfl

theorem except_map_ok {ε α β : Type} (a : α) (f : α → β) :
    ((Except.ok a : Except ε α).map f) = Except.ok (f a) := rfl

theorem vsApplyKw_literal (g : SelGraph) (idxs : List Nat) (kw : String) (rhs : RHS)
    (col : List PyV)
    (hh : (parseKw kw).1.toList.head? ≠ some '_')
    (hc : alookup (parseKw kw).1 g.vattrcols = some col) :
    vsApplyKw g idxs kw rhs
      = .ok (idxs.filter (fun i => applyOp (parseKw kw).2 (col.getD i (.pint 0)) rhs)) := by
  simp only [vsApplyKw, seqAttrValues, hh, if_false, hc, except_bind_ok]
  exact coreSelect_filterPositions_map idxs _ _

theorem esApplyKw_literal (g : SelGraph) (idxs : List Nat) (kw : String) (rhs : RHS)
    (col : List PyV)
    (hh : (parseKw kw).1.toList.head? ≠ some '_')
    (hc : alookup (parseKw kw).1 g.eattrcols = some col) :
    esApplyKw g idxs kw rhs
      = .ok (idxs.filter (fun i => applyOp (parseKw kw).2 (col.getD i (.pint 0)) rhs)) := by
  have hs : ¬((parseKw kw).1 = "_source" ∨ (parseKw kw).1 = "_from") := by
    rintro (h | h) <;> rw [h] at hh <;> exact hh (by decide)
  have ht : ¬((parseKw kw).1 = "_target" ∨ (parseKw kw).1 = "_to") := by
    rintro (h | h) <;> rw [h] at hh <;> exact hh (by decide)
  have hw : ¬((parseKw kw).1 = "_within") := by
    intro h; rw [h] at hh; exact hh (by decide)
  have hb : ¬((parseKw kw).1 = "_between") := by
    intro h; rw [h] at hh; exact hh (by decide)
  simp only [esApplyKw, seqAttrValues, hs, ht, hw, hb, hh, if_false, hc, except_bind_ok]
  exact coreSelect_filterPositions_map idxs _ _

/-! ## Claim C6: the `_between` predicate -/

/-- **C6.** On an edge sequence, a `_between` predicate requires exactly
two vertex index/entity sets given as a pair: with exactly two sets it
keeps exactly the edges having one endpoint in the first set and the other
endpoint in the second set, in either direction and whatever the parsed
operator; with any other number of sets it raises the configuration
`ValueError` (`"_between selector requires two vertex ID lists"`). -/
theorem between_arity_and_filter (g : SelGraph) (idxs : List Nat) (kw : String) (rhs : RHS)
    (hattr : (parseKw kw).1 = "_between") :
    (∀ s1 s2, rhs = .tuple [s1, s2] →
      esApplyKw g idxs kw rhs = .ok (idxs.filter (fun i =>
        (memB (ensureSetArg s1) (srcOf g i) && memB (ensureSetArg s2) (tgtOf g i))
        || (memB (ensureSetArg s2) (srcOf g i) && memB (ensureSetArg s1) (tgtOf g i))))) ∧
    (∀ comps, rhs = .tuple comps → comps.length ≠ 2 →
      esApplyKw g idxs kw rhs
        = .error (.valueError "_between selector requires two vertex ID lists")) := by
  constructor
  · rintro s1 s2 rfl
    simp only [esApplyKw, hattr]
    norm_num
    exact coreSelect_filterPositions_map idxs _ _
  · rintro comps rfl hlen
    simp only [esApplyKw, hattr]
    rw [if_neg (by decide : ¬("_between" = "_source" ∨ "_between" = "_from"))]
    rw [if_neg (by decide : ¬("_between" = "_target" ∨ "_between" = "_to"))]
    rw [if_neg (by decide : ¬("_between" = "_within"))]
    simp [hlen]

/-- Witness for C6 on the spec §8 example graph: `_between=([0], [1, 2])`
keeps exactly edge 0 (the edge `(0, 1)`), and a one-element tuple raises
the configuration error. -/
theorem between_arity_and_filter_witness :
    esApplyKw pathGraph [0, 1, 2, 3] "_between"
      (.tuple [.iter [.pint 0], .iter [.pint 1, .pint 2]]) = .ok [0] ∧
    esApplyKw pathGraph [0, 1, 2, 3] "_between" (.tuple [.iter [.pint 0]])
      = .error (.valueError "_between selector requires two vertex ID lists") := by
  constructor
  · have h := (between_arity_and_filter pathGraph [0, 1, 2, 3] "_between"
      (.tuple [.iter [.pint 0], .iter [.pint 1, .pint 2]]) (by decide)).1
      (.iter [.pint 0]) (.iter [.pint 1, .pint 2]) rfl
    rw [h]
    decide
  · exact (between_arity_and_filter pathGraph [0, 1, 2, 3] "_between"
      (.tuple [.iter [.pint 0]]) (by decide)).2 [.iter [.pint 0]] rfl (by decide)

/-! ## Claim C4: set coercion of `in`/`notin` right-hand values -/

/-- C4 counterexample: on a vertex sequence, the literal-attribute
predicate `age_in=<entity sequence>` tests membership against the
sequence's `Vertex` objects, not against its coerced absolute-index set:
at `ageGraph` (vertex 0 has `age = 0`) the code keeps no vertex, while the
claimed coerce-first semantics (`vsApplyKwCoerced`) keeps vertex 0. -/
theorem in_coercion_counterexample :
    vsApplyKw ageGraph [0] "age_in" (.vseq [0]) = .ok [] ∧
    vsApplyKwCoerced ageGraph [0] "age_in" (.vseq [0]) = .ok [0] := by
  constructor
  · rfl
  · rfl

/-- **C4 (amended).** Set coercion of the right-hand value before the
membership test happens only in `EdgeSeq.select`, for the endpoint
predicates `_source`/`_from`/`_target`/`_to` with `in`/`notin` and for the
`_within`/`_between` vertex sets: there an entity sequence becomes its
members' absolute-index set.  Every other predicate uses the right-hand
value exactly as given — a literal-attribute predicate on either sequence
kind and a delegated reserved-marker predicate on either sequence kind
apply the parsed operator to the raw right-hand value — so membership in
an entity-sequence right-hand value never holds for a plain attribute
value. -/
theorem in_coercion_only_endpoint_predicates (g : SelGraph) (idxs : List Nat)
    (kw : String) (rhs : RHS) (s : List PyV) (col ecol vals : List PyV)
    (s1 s2 : SetArg) :
    (((parseKw kw).1 = "_source" ∨ (parseKw kw).1 = "_from") → (parseKw kw).2 = "in" →
      ensureSet rhs = .ok s →
      esApplyKw g idxs kw rhs = .ok (idxs.filter (fun i => memB s (srcOf g i)))) ∧
    (((parseKw kw).1 = "_source" ∨ (parseKw kw).1 = "_from") → (parseKw kw).2 = "notin" →
      ensureSet rhs = .ok s →
      esApplyKw g idxs kw rhs = .ok (idxs.filter (fun i => !memB s (srcOf g i)))) ∧
    (((parseKw kw).1 = "_target" ∨ (parseKw kw).1 = "_to") → (parseKw kw).2 = "in" →
      ensureSet rhs = .ok s →
      esApplyKw g idxs kw rhs = .ok (idxs.filter (fun i => memB s (tgtOf g i)))) ∧
    (((parseKw kw).1 = "_target" ∨ (parseKw kw).1 = "_to") → (parseKw kw).2 = "notin" →
      ensureSet rhs = .ok s →
      esApplyKw g idxs kw rhs = .ok (idxs.filter (fun i => !memB s (tgtOf g i)))) ∧
    ((parseKw kw).1 = "_within" → ensureSet rhs = .ok s →
      esApplyKw g idxs kw rhs
        = .ok (idxs.filter (fun i => memB s (srcOf g i) && memB s (tgtOf g i)))) ∧
    ((parseKw kw).1 = "_between" → rhs = .tuple [s1, s2] →
      esApplyKw g idxs kw rhs = .ok (idxs.filter (fun i =>
        (memB (ensureSetArg s1) (srcOf g i) && memB (ensureSetArg s2) (tgtOf g i))
        || (memB (ensureSetArg s2) (srcOf g i) && memB (ensureSetArg s1) (tgtOf g i))))) ∧
    (∀ vidxs, ensureSet (.vseq vidxs) = .ok (vidxs.map (fun i => PyV.pint i))
      ∧ ensureSetArg (.vseq vidxs) = vidxs.map (fun i => PyV.pint i)) ∧
    ((parseKw kw).1.toList.head? ≠ some '_' →
      alookup (parseKw kw).1 g.vattrcols = some col →
      vsApplyKw g idxs kw rhs
        = .ok (idxs.filter (fun i => applyOp (parseKw kw).2 (col.getD i (.pint 0)) rhs))) ∧
    ((parseKw kw).1.toList.head? = some '_' →
      g.vmethods ((parseKw kw).1.drop 1) idxs = some vals →
      vsApplyKw g idxs kw rhs
        = coreSelect idxs (filterPositions vals (fun v => applyOp (parseKw kw).2 v rhs))) ∧
    ((parseKw kw).1.toList.head? ≠ some '_' →
      alookup (parseKw kw).1 g.eattrcols = some ecol →
      esApplyKw g idxs kw rhs
        = .ok (idxs.filter (fun i => applyOp (parseKw kw).2 (ecol.getD i (.pint 0)) rhs))) ∧
    ((parseKw kw).1.toList.head? = some '_' →
      (parseKw kw).1 ∉ ["_source", "_from", "_target", "_to", "_within", "_between"] →
      g.emethods ((parseKw kw).1.drop 1) idxs = some vals →
      esApplyKw g idxs kw rhs
        = coreSelect idxs (filterPositions vals (fun v => applyOp (parseKw kw).2 v rhs))) ∧
    (∀ a vidxs, pyInB a (.vseq vidxs) = false) := by
  have heqi : (fun (v : Nat) => applyOp "in" (.pint v) (.iter s))
      = fun (v : Nat) => memB s v := by
    funext v
    simp [applyOp, pyInB, memB]
  have heqn : (fun (v : Nat) => applyOp "notin" (.pint v) (.iter s))
      = fun (v : Nat) => !memB s v := by
    funext v
    simp [applyOp, pyInB, memB]
  refine ⟨?_, ?_, ?_, ?_, ?_, ?_, fun vidxs => ⟨rfl, rfl⟩, ?_, ?_, ?_, ?_,
    fun a vidxs => rfl⟩
  · intro hattr hop hens
    rcases hattr with hattr | hattr
    · simp only [esApplyKw, hattr, hop, hens]
      norm_num [except_map_ok, except_bind_ok]
      rw [heqi]
      exact coreSelect_filterPositions_map idxs _ _
    · simp only [esApplyKw, hattr, hop, hens]
      norm_num [except_map_ok, except_bind_ok]
      rw [heqi]
      exact coreSelect_filterPositions_map idxs _ _
  · intro hattr hop hens
    rcases hattr with hattr | hattr
    · simp only [esApplyKw, hattr, hop, hens]
      norm_num [except_map_ok, except_bind_ok]
      rw [heqn]
      exact coreSelect_filterPositions_map idxs _ _
    · simp only [esApplyKw, hattr, hop, hens]
      norm_num [except_map_ok, except_bind_ok]
      rw [heqn]
      exact coreSelect_filterPositions_map idxs _ _
  · intro hattr hop hens
    rcases hattr with hattr | hattr
    · simp only [esApplyKw, hattr, hop, hens]
      norm_num [except_map_ok, except_bind_ok]
      rw [heqi]
      exact coreSelect_filterPositions_map idxs _ _
    · simp only [esApplyKw, hattr, hop, hens]
      norm_num [except_map_ok, except_bind_ok]
      rw [heqi]
      exact coreSelect_filterPositions_map idxs _ _
  · intro hattr hop hens
    rcases hattr with hattr | hattr
    · simp only [esApplyKw, hattr, hop, hens]
      norm_num [except_map_ok, except_bind_ok]
      rw [heqn]
      exact coreSelect_filterPositions_map idxs _ _
    · simp only [esApplyKw, hattr, hop, hens]
      norm_num [except_map_ok, except_bind_ok]
      rw [heqn]
      exact coreSelect_filterPositions_map idxs _ _
  · intro hattr hens
    simp only [esApplyKw, hattr, hens]
    norm_num [except_bind_ok]
    exact coreSelect_filterPositions_map idxs _ _
  · intro hattr heq
    subst heq
    simp only [esApplyKw, hattr]
    norm_num
    exact coreSelect_filterPositions_map idxs _ _
  · intro hh hc
    exact vsApplyKw_literal g idxs kw rhs col hh hc
  · intro hh hm
    simp only [vsApplyKw, hh, hm, except_bind_ok, if_true]
  · intro hh hc
    exact esApplyKw_literal g idxs kw rhs ecol hh hc
  · intro hh hns hm
    have hs : ¬((parseKw kw).1 = "_source" ∨ (parseKw kw).1 = "_from") := by
      rintro (h | h) <;> rw [h] at hns <;> exact hns (by decide)
    have ht : ¬((parseKw kw).1 = "_target" ∨ (parseKw kw).1 = "_to") := by
      rintro (h | h) <;> rw [h] at hns <;> exact hns (by decide)
    have hw : ¬((parseKw kw).1 = "_within") := by
      intro h; rw [h] at hns; exact hns (by decide)
    have hb : ¬((parseKw kw).1 = "_between") := by
      intro h; rw [h] at hns; exact hns (by decide)
    simp only [esApplyKw, hs, ht, hw, hb, if_false, hh, hm, except_bind_ok, if_true]

/-- Witness for C4's amended statement on the spec §8 example graph:
coerced `_source_in=<entity sequence [0]>` keeps edges 0 and 3, coerced
`_target_notin=<entity sequence [1]>` keeps edges 1, 2 and 3, while the
uncoerced edge literal `w_in=<entity sequence [1]>` keeps nothing and the
uncoerced vertex literal `age_in=[0]` keeps vertex 0 of `ageGraph`. -/
theorem in_coercion_only_endpoint_predicates_witness :
    esApplyKw pathGraph [0, 1, 2, 3] "_source_in" (.vseq [0]) = .ok [0, 3] ∧
    esApplyKw pathGraph [0, 1, 2, 3] "_target_notin" (.vseq [1]) = .ok [1, 2, 3] ∧
    esApplyKw pathGraph [0, 1, 2, 3] "w_in" (.vseq [1]) = .ok [] ∧
    vsApplyKw ageGraph [0] "age_in" (.iter [.pint 0]) = .ok [0] := by
  refine ⟨?_, ?_, ?_, ?_⟩
  · have h := (in_coercion_only_endpoint_predicates pathGraph [0, 1, 2, 3] "_source_in"
      (.vseq [0]) [.pint 0] [] [] [] (.iter []) (.iter [])).1
      (by decide) (by decide) (by decide)
    rw [h]
    decide
  · have h := (in_coercion_only_endpoint_predicates pathGraph [0, 1, 2, 3] "_target_notin"
      (.vseq [1]) [.pint 1] [] [] [] (.iter []) (.iter [])).2.2.2.1
      (by decide) (by decide) (by decide)
    rw [h]
    decide
  · have h := (in_coercion_only_endpoint_predicates pathGraph [0, 1, 2, 3] "w_in"
      (.vseq [1]) [] [] [.pint 1, .pint 2, .pint 3, .pint 4] [] (.iter [])
      (.iter [])).2.2.2.2.2.2.2.2.2.1 (by decide) (by decide)
    rw [h]
    decide
  · have h := (in_coercion_only_endpoint_predicates ageGraph [0] "age_in"
      (.iter [.pint 0]) [] [.pint 0] [] [] (.iter []) (.iter [])).2.2.2.2.2.2.2.1
      (by decide) (by decide)
    rw [h]
    decide

/-! ## Claim C9: predicate composition -/

theorem bind_ok_elim {ε α β : Type} (m : Except ε α) (f : α → Except ε β) (b : β)
    (h : (m >>= f) = .ok b) : ∃ a, m = .ok a ∧ f a = .ok b := by
  cases m with
  | ok a => exact ⟨a, rfl, h⟩
  | error e =>
    rw [except_bind_error] at h
    exact Except.noConfusion h

/-- **C9.** For two keyword predicates over literal attributes (all eight
operators are order-independent), selecting with both in one call — in
either processing order — and selecting with them in two chained calls
yield the same resulting index list, on vertex and on edge sequences. -/
theorem literal_predicates_commute (g : SelGraph) (idxs : List Nat)
    (kw1 kw2 : String) (r1 r2 : RHS)
    (hh1 : (parseKw kw1).1.toList.head? ≠ some '_')
    (hh2 : (parseKw kw2).1.toList.head? ≠ some '_') :
    (∀ col1 col2,
      alookup (parseKw kw1).1 g.vattrcols = some col1 →
      alookup (parseKw kw2).1 g.vattrcols = some col2 →
      vsSelectKws g idxs [(kw1, r1), (kw2, r2)]
        = vsSelectKws g idxs [(kw2, r2), (kw1, r1)] ∧
      (vsSelectKws g idxs [(kw1, r1)] >>= fun cur => vsSelectKws g cur [(kw2, r2)])
        = vsSelectKws g idxs [(kw1, r1), (kw2, r2)]) ∧
    (∀ col1 col2,
      alookup (parseKw kw1).1 g.eattrcols = some col1 →
      alookup (parseKw kw2).1 g.eattrcols = some col2 →
      esSelectKws g idxs [(kw1, r1), (kw2, r2)]
        = esSelectKws g idxs [(kw2, r2), (kw1, r1)] ∧
      (esSelectKws g idxs [(kw1, r1)] >>= fun cur => esSelectKws g cur [(kw2, r2)])
        = esSelectKws g idxs [(kw1, r1), (kw2, r2)]) := by
  constructor
  · intro col1 col2 hc1 hc2
    have e1 : ∀ cur : List Nat, vsApplyKw g cur kw1 r1
        = .ok (cur.filter (fun i => applyOp (parseKw kw1).2 (col1.getD i (.pint 0)) r1)) :=
      fun cur => vsApplyKw_literal g cur kw1 r1 col1 hh1 hc1
    have e2 : ∀ cur : List Nat, vsApplyKw g cur kw2 r2
        = .ok (cur.filter (fun i => applyOp (parseKw kw2).2 (col2.getD i (.pint 0)) r2)) :=
      fun cur => vsApplyKw_literal g cur kw2 r2 col2 hh2 hc2
    constructor
    · simp only [vsSelectKws, List.foldlM_cons, List.foldlM_nil, e1, e2, except_bind_ok]
      rw [List.filter_comm]
    · simp only [vsSelectKws, List.foldlM_cons, List.foldlM_nil, e1, e2, except_bind_ok]
      rfl
  · intro col1 col2 hc1 hc2
    have e1 : ∀ cur : List Nat, esApplyKw g cur kw1 r1
        = .ok (cur.filter (fun i => applyOp (parseKw kw1).2 (col1.getD i (.pint 0)) r1)) :=
      fun cur => esApplyKw_literal g cur kw1 r1 col1 hh1 hc1
    have e2 : ∀ cur : List Nat, esApplyKw g cur kw2 r2
        = .ok (cur.filter (fun i => applyOp (parseKw kw2).2 (col2.getD i (.pint 0)) r2)) :=
      fun cur => esApplyKw_literal g cur kw2 r2 col2 hh2 hc2
    constructor
    · simp only [esSelectKws, List.foldlM_cons, List.foldlM_nil, e1, e2, except_bind_ok]
      rw [List.filter_comm]
    · simp only [esSelectKws, List.foldlM_cons, List.foldlM_nil, e1, e2, except_bind_ok]
      rfl

/-- Witness for C9 on the spec §8 example graph: `age_gt=1` and `age_lt=4`
compose identically in one call (either order) and in chained calls. -/
theorem literal_predicates_commute_witness :
    vsSelectKws pathGraph [0, 1, 2, 3] [("age_gt", .scalar (.pint 1)), ("age_lt", .scalar (.pint 4))]
      = vsSelectKws pathGraph [0, 1, 2, 3] [("age_lt", .scalar (.pint 4)), ("age_gt", .scalar (.pint 1))] ∧
    (vsSelectKws pathGraph [0, 1, 2, 3] [("age_gt", .scalar (.pint 1))] >>= fun cur =>
        vsSelectKws pathGraph cur [("age_lt", .scalar (.pint 4))])
      = vsSelectKws pathGraph [0, 1, 2, 3]
          [("age_gt", .scalar (.pint 1)), ("age_lt", .scalar (.pint 4))] :=
  (literal_predicates_commute pathGraph [0, 1, 2, 3] "age_gt" "age_lt"
    (.scalar (.pint 1)) (.scalar (.pint 4)) (by decide) (by decide)).1
    [.pint 1, .pint 2, .pint 3, .pint 4] [.pint 1, .pint 2, .pint 3, .pint 4]
    (by decide) (by decide)

/-! ## Claim C10: keyword selection narrows the sequence -/

theorem vsApplyKw_ok_sublist (g : SelGraph) (idxs : List Nat) (kw : String) (rhs : RHS)
    (out : List Nat) (h : vsApplyKw g idxs kw rhs = .ok out) : List.Sublist out idxs := by
  simp only [vsApplyKw] at h
  repeat' split at h
  all_goals first
    | exact Except.noConfusion h
    | (rw [except_bind_error] at h; exact Except.noConfusion h)
    | exact coreSelect_ok_sublist idxs _ out (filterPositions_pairwise _ _) h
    | (obtain ⟨v, _, hcore⟩ := bind_ok_elim _ _ _ h
       exact coreSelect_ok_sublist idxs _ out (filterPositions_pairwise _ _) hcore)

theorem esApplyKw_ok_sublist (g : SelGraph) (idxs : List Nat) (kw : String) (rhs : RHS)
    (out : List Nat) (h : esApplyKw g idxs kw rhs = .ok out) : List.Sublist out idxs := by
  simp only [esApplyKw] at h
  repeat' split at h
  all_goals first
    | exact Except.noConfusion h
    | (rw [except_bind_error] at h; exact Except.noConfusion h)
    | exact coreSelect_ok_sublist idxs _ out (filterPositions_pairwise _ _) h
    | (obtain ⟨v, _, hcore⟩ := bind_ok_elim _ _ _ h
       exact coreSelect_ok_sublist idxs _ out (filterPositions_pairwise _ _) hcore)

theorem vsSelectKws_ok_sublist (g : SelGraph) (kwds : List (String × RHS)) :
    ∀ (idxs out : List Nat), vsSelectKws g idxs kwds = .ok out → List.Sublist out idxs := by
  induction kwds with
  | nil =>
    intro idxs out h
    have : idxs = out := by
      have hp : (Except.ok idxs : Except PyErr (List Nat)) = .ok out := h
      exact Except.ok.inj hp
    rw [← this]
  | cons p rest ih =>
    intro idxs out h
    have hb : (vsApplyKw g idxs p.1 p.2 >>= fun b => vsSelectKws g b rest) = .ok out := h
    obtain ⟨c1, h1, h2⟩ := bind_ok_elim _ _ _ hb
    exact (ih c1 out h2).trans (vsApplyKw_ok_sublist g idxs p.1 p.2 c1 h1)

theorem esSelectKws_ok_sublist (g : SelGraph) (kwds : List (String × RHS)) :
    ∀ (idxs out : List Nat), esSelectKws g idxs kwds = .ok out → List.Sublist out idxs := by
  induction kwds with
  | nil =>
    intro idxs out h
    have : idxs = out := by
      have hp : (Except.ok idxs : Except PyErr (List Nat)) = .ok out := h
      exact Except.ok.inj hp
    rw [← this]
  | cons p rest ih =>
    intro idxs out h
    have hb : (esApplyKw g idxs p.1 p.2 >>= fun b => esSelectKws g b rest) = .ok out := h
    obtain ⟨c1, h1, h2⟩ := bind_ok_elim _ _ _ hb
    exact (ih c1 out h2).trans (esApplyKw_ok_sublist g idxs p.1 p.2 c1 h1)

/-- **C10.** A keyword-predicates-only `select` on a vertex or edge
sequence returns an order-preserving subsequence of the receiver's
absolute indices: each predicate narrows the working sequence by relative
positions, never reordering it or introducing new indices. -/
theorem select_keyword_only_sublist :
    (∀ (g : SelGraph) (kwds : List (String × RHS)) (idxs out : List Nat),
      vsSelectKws g idxs kwds = .ok out → List.Sublist out idxs) ∧
    (∀ (g : SelGraph) (kwds : List (String × RHS)) (idxs out : List Nat),
      esSelectKws g idxs kwds = .ok out → List.Sublist out idxs) :=
  ⟨fun g kwds idxs out h => vsSelectKws_ok_sublist g kwds idxs out h,
   fun g kwds idxs out h => esSelectKws_ok_sublist g kwds idxs out h⟩

/-- Witness for C10 on the spec §8 example graph: `age_gt=1` keeps
`[1, 2, 3]`, a subsequence of the receiver `[0, 1, 2, 3]`; on edges,
`_within=[0, 1, 3]` keeps `[0, 3]`, likewise a subsequence. -/
theorem select_keyword_only_sublist_witness :
    vsSelectKws pathGraph [0, 1, 2, 3] [("age_gt", .scalar (.pint 1))] = .ok [1, 2, 3] ∧
    List.Sublist [1, 2, 3] [0, 1, 2, 3] ∧
    esSelectKws pathGraph [0, 1, 2, 3] [("_within", .iter [.pint 0, .pint 1, .pint 3])]
      = .ok [0, 3] ∧
    List.Sublist [0, 3] [0, 1, 2, 3] := by
  refine ⟨by decide, ?_, by decide, ?_⟩
  · exact select_keyword_only_sublist.1 pathGraph [("age_gt", .scalar (.pint 1))]
      [0, 1, 2, 3] [1, 2, 3] (by decide)
  · exact select_keyword_only_sublist.2 pathGraph
      [("_within", .iter [.pint 0, .pint 1, .pint 3])] [0, 1, 2, 3] [0, 3] (by decide)

/-! ## Supporting lemmas: attribute accumulation and densified columns -/

theorem alookup_materialize (acc : List (String × List (Nat × V))) (n : Nat) (k : String) :
    alookup k (materialize acc n)
      = (alookup k acc).map (fun l => create_list_from_indices l n) := by
  induction acc with
  | nil => rfl
  | cons p rest ih =>
    by_cases h : p.1 = k <;> simp [materialize, alookup, h] <;>
      simpa [materialize] using ih

theorem accRecord_cons (acc : List (String × List (Nat × V))) (idx : Nat)
    (kv : String × V) (rest : List (String × V)) :
    accRecord acc idx (kv :: rest)
      = accRecord (aupd kv.1 (fun o => o.getD [] ++ [(idx, kv.2)]) acc) idx rest := rfl

theorem alookup_accRecord_of_not_mem (acc : List (String × List (Nat × V))) (idx : Nat)
    (r : List (String × V)) (k : String) (hk : k ∉ r.map Prod.fst) :
    alookup k (accRecord acc idx r) = alookup k acc := by
  induction r generalizing acc with
  | nil => rfl
  | cons kv rest ih =>
    rw [accRecord_cons]
    have hk1 : kv.1 ≠ k := by
      intro hc
      exact hk (by simp [hc])
    have hkr : k ∉ rest.map Prod.fst := by
      intro hc
      exact hk (by simp [hc])
    rw [ih _ hkr, alookup_aupd, if_neg hk1]

theorem alookup_accRecord (acc : List (String × List (Nat × V))) (idx : Nat)
    (r : List (String × V)) (k : String) (hnd : (r.map Prod.fst).Nodup) :
    alookup k (accRecord acc idx r)
      = (match alookup k r with
         | some v => some ((alookup k acc).getD [] ++ [(idx, v)])
         | none => alookup k acc) := by
  induction r generalizing acc with
  | nil => rfl
  | cons kv rest ih =>
    rw [List.map_cons] at hnd
    obtain ⟨hnm, hnd'⟩ := List.nodup_cons.mp hnd
    rw [accRecord_cons]
    by_cases hk : kv.1 = k
    · subst hk
      rw [alookup_accRecord_of_not_mem _ _ _ _ hnm]
      have ha := alookup_aupd kv.1 kv.1 (fun o => o.getD [] ++ [(idx, kv.2)]) acc
      rw [if_pos rfl] at ha
      rw [ha]
      simp [alookup]
    · have ha := alookup_aupd k kv.1 (fun o => o.getD [] ++ [(idx, kv.2)]) acc
      rw [if_neg hk] at ha
      rw [ih _ hnd', ha]
      cases hr : alookup k rest <;> simp [alookup, hk, hr]

theorem accRecord_pairs_le (idx : Nat) (r : List (String × V)) :
    ∀ (acc : List (String × List (Nat × V))),
      (∀ k l, alookup k acc = some l → ∀ p ∈ l, p.1 ≤ idx) →
      ∀ k l, alookup k (accRecord acc idx r) = some l → ∀ p ∈ l, p.1 ≤ idx := by
  induction r with
  | nil => intro acc hb; exact hb
  | cons kv rest ih =>
    intro acc hb
    rw [accRecord_cons]
    apply ih
    intro k l hkl p hp
    rw [alookup_aupd] at hkl
    by_cases hk : kv.1 = k
    · rw [if_pos hk] at hkl
      cases hkl
      rcases List.mem_append.mp hp with hpl | hpr
      · cases ho : alookup k acc with
        | some old =>
          rw [ho] at hpl
          exact hb k old ho p hpl
        | none => rw [ho] at hpl; simp at hpl
      · have : p = (idx, kv.2) := by simpa using hpr
        rw [this]
    · rw [if_neg hk] at hkl
      exact hb k l hkl p hp

theorem accRecords_snoc (rs : List (List (String × V))) (r : List (String × V)) :
    accRecords (rs ++ [r]) = accRecord (accRecords rs) rs.length r := by
  unfold accRecords
  rw [List.enum_append, List.foldl_append]
  rfl

theorem accRecords_pairs_lt (rs : List (List (String × V))) :
    ∀ k l, alookup k (accRecords rs) = some l → ∀ p ∈ l, p.1 < rs.length := by
  induction rs using List.reverseRecOn with
  | nil =>
    intro k l h
    simp [accRecords, alookup] at h
  | append_singleton rs r ih =>
    rw [accRecords_snoc]
    intro k l h p hp
    have hb : ∀ k l, alookup k (accRecords rs) = some l → ∀ p ∈ l, p.1 ≤ rs.length :=
      fun k l h p hp => le_of_lt (ih k l h p hp)
    have := accRecord_pairs_le rs.length r (accRecords rs) hb k l h p hp
    simp only [List.length_append, List.length_singleton]
    omega

theorem set_append_len {α : Type} (xs : List α) (y z : α) :
    (xs ++ [y]).set xs.length z = xs ++ [z] := by
  rw [List.set_append_right _ _ (Nat.le_refl _)]
  simp

theorem accRecords_column (rs : List (List (String × V)))
    (hkeys : ∀ r ∈ rs, (r.map Prod.fst).Nodup) (k : String) :
    alookup k (materialize (accRecords rs) rs.length)
      = if (rs.map (fun r => alookup k r)).any (fun o => o.isSome)
        then some (rs.map (fun r => alookup k r))
        else none := by
  induction rs using List.reverseRecOn with
  | nil => simp [accRecords, materialize, alookup]
  | append_singleton rs r ih =>
    have ihk := ih (fun r' hr' => hkeys r' (by simp [hr']))
    rw [alookup_materialize] at ihk
    rw [alookup_materialize, accRecords_snoc,
      alookup_accRecord _ _ _ _ (hkeys r (by simp))]
    have hlen : (rs ++ [r]).length = rs.length + 1 := by simp
    have hmap : (rs ++ [r]).map (fun r => alookup k r)
        = rs.map (fun r => alookup k r) ++ [alookup k r] := by simp
    have hmaplen : (rs.map (fun r => alookup k r)).length = rs.length := by simp
    cases hr : alookup k r with
    | some v =>
      cases ha : alookup k (accRecords rs) with
      | some l =>
        rw [ha] at ihk
        simp only [Option.map_some'] at ihk
        have hany : (rs.map (fun r => alookup k r)).any (fun o => o.isSome) = true := by
          by_contra hc
          rw [if_neg hc] at ihk
          exact Option.noConfusion ihk
        rw [if_pos hany] at ihk
        have hcreate : create_list_from_indices l rs.length
            = rs.map (fun r => alookup k r) := Option.some.inj ihk
        have hbound : ∀ p ∈ l, p.1 < rs.length := accRecords_pairs_lt rs k l ha
        rw [hlen, hmap]
        simp only [Option.getD_some, Option.map_some']
        rw [create_list_snoc, create_list_succ _ _ hbound, hcreate]
        rw [show ((rs.map (fun r => alookup k r)) ++ [(none : Option V)]).set rs.length
              (some v) = rs.map (fun r => alookup k r) ++ [some v] from by
            rw [← hmaplen]; exact set_append_len _ _ _]
        rw [if_pos (by rw [List.any_append]; simp [hr]), hr]
      | none =>
        rw [ha] at ihk
        simp only [Option.map_none'] at ihk
        have hany : ¬((rs.map (fun r => alookup k r)).any (fun o => o.isSome) = true) := by
          intro hc
          rw [if_pos hc] at ihk
          exact Option.noConfusion ihk
        have hallnone : ∀ o ∈ rs.map (fun r => alookup k r), o = none := by
          intro o ho
          cases o with
          | none => rfl
          | some w =>
            exact absurd (List.any_eq_true.mpr ⟨some w, ho, rfl⟩) hany
        have hrepl : rs.map (fun r => alookup k r)
            = List.replicate rs.length (none : Option V) :=
          List.eq_replicate_iff.mpr ⟨hmaplen, hallnone⟩
        rw [hlen, hmap]
        simp only [Option.getD_none, Option.map_some']
        rw [show create_list_from_indices ([] ++ [(rs.length, v)]) (rs.length + 1)
              = (create_list_from_indices [] (rs.length + 1)).set rs.length (some v) from
            create_list_snoc [] (rs.length, v) (rs.length + 1)]
        rw [show create_list_from_indices ([] : List (Nat × V)) (rs.length + 1)
              = List.replicate (rs.length + 1) (none : Option V) from rfl]
        rw [List.replicate_succ']
        have hset : (List.replicate rs.length (none : Option V) ++ [none]).set rs.length
            (some v) = List.replicate rs.length (none : Option V) ++ [some v] := by
          have h3 := set_append_len (List.replicate rs.length (none : Option V))
            (none : Option V) (some v)
          rwa [List.length_replicate] at h3
        rw [hset, if_pos (by rw [List.any_append]; simp [hr]), hr, hrepl]
    | none =>
      cases ha : alookup k (accRecords rs) with
      | some l =>
        rw [ha] at ihk
        simp only [Option.map_some'] at ihk
        have hany : (rs.map (fun r => alookup k r)).any (fun o => o.isSome) = true := by
          by_contra hc
          rw [if_neg hc] at ihk
          exact Option.noConfusion ihk
        rw [if_pos hany] at ihk
        have hcreate : create_list_from_indices l rs.length
            = rs.map (fun r => alookup k r) := Option.some.inj ihk
        have hbound : ∀ p ∈ l, p.1 < rs.length := accRecords_pairs_lt rs k l ha
        rw [hlen]
        simp only [Option.map_some']
        rw [create_list_succ _ _ hbound, hcreate, hmap, List.any_append,
          if_pos (by simp [hany]), hr]
      | none =>
        rw [ha] at ihk
        simp only [Option.map_none'] at ihk
        have hany : ¬((rs.map (fun r => alookup k r)).any (fun o => o.isSome) = true) := by
          intro hc
          rw [if_pos hc] at ihk
          exact Option.noConfusion ihk
        simp only [Option.map_none']
        rw [hmap, List.any_append,
          if_neg (by simp [hr]; simpa using hany)]

/-! ## Claim C7: vertex name uniqueness -/

theorem batchEdges_error_shape (efk_src efk_dest : String)
    (rs : List (List (String × V))) :
    ∀ idx gen eL acc e,
      batchEdges efk_src efk_dest rs idx gen eL acc = .error e →
      e = .keyError efk_src ∨ e = .keyError efk_dest := by
  induction rs with
  | nil =>
    intro idx gen eL acc e h
    rw [batchEdges] at h
    exact Except.noConfusion h
  | cons r rest ih =>
    intro idx gen eL acc e h
    rw [batchEdges] at h
    split at h
    · cases h
      exact Or.inl rfl
    · split at h
      · cases h
        exact Or.inr rfl
      · exact ih _ _ _ _ _ h

theorem iterEdges_error_shape (efk_src efk_dest na : String)
    (rs : List (List (String × V))) :
    ∀ idx gen n g e,
      iterEdges efk_src efk_dest na rs idx gen n g = .error e →
      e = .keyError efk_src ∨ e = .keyError efk_dest := by
  induction rs with
  | nil =>
    intro idx gen n g e h
    rw [iterEdges] at h
    exact Except.noConfusion h
  | cons r rest ih =>
    intro idx gen n g e h
    rw [iterEdges] at h
    split at h
    · cases h
      exact Or.inl rfl
    · split at h
      · cases h
        exact Or.inr rfl
      · exact ih _ _ _ _ _ h

theorem vertexPhase_char (vertices : List (List (String × V))) (na : String)
    (hne : vertices ≠ []) (hkeys : ∀ r ∈ vertices, (r.map Prod.fst).Nodup) :
    vertexPhase (some vertices) na
      = if (vertices.map (fun r => alookup na r)).any (fun o => o.isSome)
        then (if (vertices.map (fun r => alookup na r)).Nodup
              then .ok (materialize (accRecords vertices) vertices.length,
                        vertices.length, vertices.map (fun r => alookup na r))
              else .error (.valueError "vertex names are not unique"))
        else .error (.keyError na) := by
  obtain ⟨r0, rest, rfl⟩ : ∃ r0 rest, vertices = r0 :: rest := by
    cases vertices with
    | nil => exact absurd rfl hne
    | cons r0 rest => exact ⟨r0, rest, rfl⟩
  simp only [vertexPhase, Option.getD_some, List.isEmpty_cons, Bool.false_eq_true, if_false]
  rw [accRecords_column _ hkeys na]
  by_cases hany : ((r0 :: rest).map (fun r => alookup na r)).any (fun o => o.isSome) = true
  · rw [if_pos hany, if_pos hany]
  · rw [if_neg hany, if_neg hany]

theorem dictlist_error_from (vertices : Option (List (List (String × V))))
    (edges : List (List (String × V))) (directed : Bool)
    (na efk_src efk_dest : String) (iterative : Bool) (e : PyErr)
    (h : DictList vertices edges directed na (efk_src, efk_dest) iterative = .error e) :
    vertexPhase vertices na = .error e ∨ e = .keyError efk_src ∨ e = .keyError efk_dest := by
  cases iterative with
  | false =>
    simp only [DictList, Bool.false_eq_true, if_false, dictListBatch] at h
    cases hvp : vertexPhase vertices na with
    | error e' =>
      rw [hvp, except_bind_error] at h
      exact Or.inl (congrArg Except.error (Except.error.inj h))
    | ok st =>
      obtain ⟨va, n, names⟩ := st
      rw [hvp, except_bind_ok] at h
      cases hbe : batchEdges efk_src efk_dest edges 0 ⟨names⟩ [] [] with
      | ok st2 =>
        rw [hbe, except_bind_ok] at h
        exact Except.noConfusion h
      | error e2 =>
        rw [hbe, except_bind_error] at h
        rw [← Except.error.inj h]
        exact Or.inr (batchEdges_error_shape efk_src efk_dest edges 0 ⟨names⟩ [] [] e2 hbe)
  | true =>
    simp only [DictList, if_true, dictListIter] at h
    cases hvp : vertexPhase vertices na with
    | error e' =>
      rw [hvp, except_bind_error] at h
      exact Or.inl (congrArg Except.error (Except.error.inj h))
    | ok st =>
      obtain ⟨va, n, names⟩ := st
      rw [hvp, except_bind_ok] at h
      exact Or.inr (iterEdges_error_shape efk_src efk_dest na edges 0 ⟨names⟩ n _ e h)

/-- **C7.** When two vertex records given to `Graph.DictList` carry the
same value under the distinguished name key, construction fails — in both
modes — with the uniqueness `ValueError` and no graph is returned; when
the materialized name column is duplicate-free, this check passes (the
uniqueness error is never raised). -/
theorem dictlist_vertex_name_uniqueness
    (vertices : List (List (String × V))) (edges : List (List (String × V)))
    (directed : Bool) (na efk_src efk_dest : String) (iterative : Bool)
    (hkeys : ∀ r ∈ vertices, (r.map Prod.fst).Nodup) :
    ((∃ i j : Fin vertices.length, (i : Nat) ≠ (j : Nat) ∧ ∃ v : V,
        alookup na (vertices.get i) = some v ∧ alookup na (vertices.get j) = some v) →
      DictList (some vertices) edges directed na (efk_src, efk_dest) iterative
        = .error (.valueError "vertex names are not unique")) ∧
    ((vertices.map (fun r => alookup na r)).Nodup →
      DictList (some vertices) edges directed na (efk_src, efk_dest) iterative
        ≠ .error (.valueError "vertex names are not unique")) := by
  constructor
  · rintro ⟨i, j, hij, v, hvi, hvj⟩
    have hne : vertices ≠ [] := by
      intro h
      rw [h] at i
      exact absurd i.2 (by simp)
    have hany : ((vertices.map (fun r => alookup na r)).any (fun o => o.isSome)) = true := by
      apply List.any_eq_true.mpr
      refine ⟨some v, List.mem_map.mpr ⟨vertices.get i, List.get_mem vertices i.1 i.2, hvi⟩, rfl⟩
    have hnd : ¬ (vertices.map (fun r => alookup na r)).Nodup := by
      intro hnd
      apply hij
      have hlen : (vertices.map (fun r => alookup na r)).length = vertices.length := by simp
      have hgi : (vertices.map (fun r => alookup na r)).get ⟨i, by rw [hlen]; exact i.2⟩
          = some v := by
        simp [List.getElem_map]
        rw [show vertices[(i : Nat)] = vertices.get i from rfl, hvi]
      have hgj : (vertices.map (fun r => alookup na r)).get ⟨j, by rw [hlen]; exact j.2⟩
          = some v := by
        simp [List.getElem_map]
        rw [show vertices[(j : Nat)] = vertices.get j from rfl, hvj]
      have h2 := List.nodup_iff_injective_get.mp hnd (hgi.trans hgj.symm)
      simp only [Fin.mk.injEq] at h2
      exact h2
    have hvp : vertexPhase (some vertices) na
        = .error (.valueError "vertex names are not unique") := by
      rw [vertexPhase_char vertices na hne hkeys, if_pos hany, if_neg hnd]
    cases iterative with
    | false =>
      simp only [DictList, Bool.false_eq_true, if_false, dictListBatch, hvp]
      rfl
    | true =>
      simp only [DictList, if_true, dictListIter, hvp]
      rfl
  · intro hnd hcontra
    rcases dictlist_error_from (some vertices) edges directed na efk_src efk_dest iterative
        _ hcontra with hvp | he | he
    · by_cases hne : vertices = []
      · subst hne
        have : vertexPhase (V := V) (some []) na = .ok ([(na, [])], 0, []) := by
          simp [vertexPhase, alookup]
        rw [this] at hvp
        exact Except.noConfusion hvp
      · rw [vertexPhase_char vertices na hne hkeys] at hvp
        by_cases hany : ((vertices.map (fun r => alookup na r)).any (fun o => o.isSome))
            = true
        · rw [if_pos hany, if_pos hnd] at hvp
          exact Except.noConfusion hvp
        · rw [if_neg hany] at hvp
          exact PyErr.noConfusion (Except.error.inj hvp)
    · exact PyErr.noConfusion he
    · exact PyErr.noConfusion he

/-- Witness for C7: two records named `"x"` fail construction with the
uniqueness error; records named `"x"` and `"y"` never raise it. -/
theorem dictlist_vertex_name_uniqueness_witness :
    DictList (V := String) (some [[("name", "x")], [("name", "x")]]) [] false "name"
      ("source", "target") false = .error (.valueError "vertex names are not unique") ∧
    DictList (V := String) (some [[("name", "x")], [("name", "y")]]) [] false "name"
      ("source", "target") false ≠ .error (.valueError "vertex names are not unique") := by
  constructor
  · exact (dictlist_vertex_name_uniqueness [[("name", "x")], [("name", "x")]] [] false
      "name" "source" "target" false (by decide)).1
      ⟨⟨0, by decide⟩, ⟨1, by decide⟩, by decide, "x", by decide, by decide⟩
  · exact (dictlist_vertex_name_uniqueness [[("name", "x")], [("name", "y")]] [] false
      "name" "source" "target" false (by decide)).2 (by decide)

/-! ## Claim C8: lazy vertex discovery in first-seen order -/

theorem batchEdges_gen_keys (efk_src efk_dest : String) (rs : List (List (String × V))) :
    ∀ idx gen eL acc st,
      batchEdges efk_src efk_dest rs idx gen eL acc = .ok st →
      st.1.keys = (endpointStream efk_src efk_dest rs).foldl seenInsert gen.keys := by
  induction rs with
  | nil =>
    intro idx gen eL acc st h
    rw [batchEdges] at h
    cases h
    rfl
  | cons r rest ih =>
    intro idx gen eL acc st h
    rw [batchEdges] at h
    split at h
    · exact Except.noConfusion h
    · rename_i s hs
      split at h
      · exact Except.noConfusion h
      · rename_i t ht
        have hrec := ih _ _ _ _ _ h
        rw [hrec]
        have hstream : endpointStream efk_src efk_dest (r :: rest)
            = alookup efk_src r :: alookup efk_dest r :: endpointStream efk_src efk_dest rest :=
          rfl
        rw [hstream, List.foldl_cons, List.foldl_cons, hs, ht]
        rw [uig_lookup_keys, uig_lookup_keys]

theorem batchFinish_no_vertices (directed : Bool) (na : String)
    (st : UniqueIdGen (Option V) × List (Nat × Nat) × List (String × List (Nat × V)) × Nat) :
    (batchFinish directed [(na, [])] 0 na st).n = st.1.keys.length ∧
    alookup na (batchFinish directed [(na, [])] 0 na st).vattrs = some st.1.keys ∧
    (batchFinish directed [(na, [])] 0 na st).edges = st.2.1 := by
  simp only [batchFinish]
  by_cases h : 0 < st.1.keys.length
  · rw [if_pos h]
    refine ⟨rfl, ?_, trivial⟩
    have ha := alookup_aupd na na (fun _ => st.1.keys)
      ([(na, ([] : List (Option V)))].map
        (fun kc => (kc.1, kc.2 ++ List.replicate (st.1.keys.length - 0) none)))
    rw [if_pos rfl] at ha
    exact ha
  · rw [if_neg h]
    have hkeys : st.1.keys = [] := List.eq_nil_of_length_eq_zero (by omega)
    refine ⟨by rw [hkeys]; rfl, ?_, trivial⟩
    rw [hkeys]
    simp [alookup]

/-- **C8.** When `Graph.DictList` is called with no vertex records, the
vertex set starts empty and vertices are discovered lazily from the edge
endpoint keys in first-seen order: the constructed graph's vertex count is
the number of distinct endpoint names and its name column lists them in
first-seen order; in particular, for edges naming `("a","b")` and
`("a","c")`, the graph has names `[a, b, c]`, vertex count 3 and edge list
`[(0,1), (0,2)]`. -/
theorem lazy_vertex_discovery (edges : List (List (String × V)))
    (directed : Bool) (na efk_src efk_dest : String) :
    (∀ g, DictList none edges directed na (efk_src, efk_dest) false = .ok g →
        g.n = (firstSeen (endpointStream efk_src efk_dest edges)).length ∧
        alookup na g.vattrs = some (firstSeen (endpointStream efk_src efk_dest edges))) ∧
    DictList (V := String) none [recAB, recAC] false "name" ("source", "target") false
      = .ok dlExampleGraph := by
  constructor
  · intro g hok
    have hvp : vertexPhase (V := V) none na = .ok ([(na, [])], 0, []) := by
      simp [vertexPhase, alookup]
    simp only [DictList, Bool.false_eq_true, if_false, dictListBatch, hvp,
      except_bind_ok] at hok
    cases hbe : batchEdges efk_src efk_dest edges 0 ⟨[]⟩ [] [] with
    | error e =>
      rw [hbe, except_bind_error] at hok
      exact Except.noConfusion hok
    | ok st =>
      rw [hbe, except_bind_ok] at hok
      have hg : g = batchFinish directed [(na, [])] 0 na st :=
        (Except.ok.inj hok).symm
      have hkeys : st.1.keys = firstSeen (endpointStream efk_src efk_dest edges) :=
        batchEdges_gen_keys efk_src efk_dest edges 0 ⟨[]⟩ [] [] st hbe
      obtain ⟨hn, hcol, _⟩ := batchFinish_no_vertices (V := V) directed na st
      rw [hg, hn, hcol, hkeys]
      exact ⟨rfl, rfl⟩
  · decide

/-- Witness for C8 at the concrete input: the constructed graph's vertex
count and name column match the first-seen endpoint order `a, b, c`. -/
theorem lazy_vertex_discovery_witness :
    dlExampleGraph.n
      = (firstSeen (endpointStream "source" "target" [recAB, recAC])).length ∧
    alookup "name" dlExampleGraph.vattrs
      = some (firstSeen (endpointStream "source" "target" [recAB, recAC])) :=
  (lazy_vertex_discovery [recAB, recAC] false "name" "source" "target").1
    dlExampleGraph (by decide)

/-! ## Supporting lemmas for the batch/iterative equivalence -/

theorem aupd_aupd {β : Type} (k : String) (f g : Option β → β) (l : List (String × β)) :
    aupd k f (aupd k g l) = aupd k (fun o => f (some (g o))) l := by
  induction l with
  | nil => simp [aupd]
  | cons p rest ih =>
    by_cases h : p.1 = k
    · obtain ⟨k1, v1⟩ := p
      simp only at h
      simp [aupd, h]
    · obtain ⟨k1, v1⟩ := p
      simp only at h
      simp [aupd, h, ih]

theorem map_second_aupd_const {β : Type} (f : β → β) (k : String) (c : β)
    (l : List (String × β)) :
    (aupd k (fun _ => c) l).map (fun kc => (kc.1, f kc.2))
      = aupd k (fun _ => f c) (l.map (fun kc => (kc.1, f kc.2))) := by
  induction l with
  | nil => simp [aupd]
  | cons p rest ih =>
    obtain ⟨k1, v1⟩ := p
    by_cases h : k1 = k
    · simp [aupd, h]
    · simp [aupd, h, ih]

theorem aupd_forall {β : Type} (k : String) (f : Option β → β) (l : List (String × β))
    (P : β → Prop) (hl : ∀ kl ∈ l, P kl.2) (hf0 : P (f none))
    (hf : ∀ v, P v → P (f (some v))) :
    ∀ kl ∈ aupd k f l, P kl.2 := by
  induction l with
  | nil =>
    intro kl hkl
    simp [aupd] at hkl
    subst hkl
    exact hf0
  | cons p rest ih =>
    obtain ⟨k1, v1⟩ := p
    intro kl hkl
    by_cases h : k1 = k
    · rw [aupd, if_pos h] at hkl
      rcases List.mem_cons.mp hkl with hh | hh
      · rw [hh]
        exact hf v1 (hl (k1, v1) (List.mem_cons_self _ _))
      · exact hl kl (List.mem_cons_of_mem _ hh)
    · rw [aupd, if_neg h] at hkl
      rcases List.mem_cons.mp hkl with hh | hh
      · rw [hh]
        exact hl (k1, v1) (List.mem_cons_self _ _)
      · exact ih (fun kl h2 => hl kl (List.mem_cons_of_mem _ h2)) kl hh

theorem accRecord_bound (idx : Nat) (r : List (String × V)) :
    ∀ (acc : List (String × List (Nat × V))),
      (∀ kl ∈ acc, ∀ p ∈ kl.2, p.1 ≤ idx) →
      ∀ kl ∈ accRecord acc idx r, ∀ p ∈ kl.2, p.1 ≤ idx := by
  induction r with
  | nil => intro acc h; exact h
  | cons kv rest ih =>
    intro acc h
    rw [accRecord_cons]
    apply ih
    intro kl hkl
    refine aupd_forall kv.1 (fun o => o.getD [] ++ [(idx, kv.2)]) acc
      (fun l => ∀ p ∈ l, p.1 ≤ idx) h ?_ ?_ kl hkl
    · intro p hp
      have hpv : p = (idx, kv.2) := by simpa using hp
      rw [hpv]
    · intro v hv p hp
      rcases List.mem_append.mp hp with hh | hh
      · exact hv p hh
      · have hpv : p = (idx, kv.2) := by simpa using hh
        rw [hpv]

theorem materialize_cons (k1 : String) (l1 : List (Nat × V))
    (rest : List (String × List (Nat × V))) (n : Nat) :
    materialize ((k1, l1) :: rest) n
      = (k1, create_list_from_indices l1 n) :: materialize rest n := rfl

theorem materialize_succ (acc : List (String × List (Nat × V))) (n : Nat)
    (hb : ∀ kl ∈ acc, ∀ p ∈ kl.2, p.1 < n) :
    materialize acc (n + 1) = (materialize acc n).map (fun kc => (kc.1, kc.2 ++ [none])) := by
  induction acc with
  | nil => rfl
  | cons p rest ih =>
    obtain ⟨k1, l1⟩ := p
    rw [materialize_cons, materialize_cons,
      ih (fun kl h => hb kl (List.mem_cons_of_mem _ h)),
      create_list_succ l1 n (hb (k1, l1) (List.mem_cons_self _ _)), List.map_cons]

theorem materialize_aupd_append (acc : List (String × List (Nat × V))) (k : String)
    (idx : Nat) (v : V) (n : Nat) :
    materialize (aupd k (fun o => o.getD [] ++ [(idx, v)]) acc) n
      = aupd k (fun o => (o.getD (List.replicate n none)).set idx (some v))
          (materialize acc n) := by
  induction acc with
  | nil =>
    simp only [aupd, materialize, List.map_cons, List.map_nil]
    rw [show create_list_from_indices ((none : Option (List (Nat × V))).getD [] ++ [(idx, v)]) n
        = (List.replicate n (none : Option V)).set idx (some v) from rfl]
    rfl
  | cons p rest ih =>
    obtain ⟨k1, l1⟩ := p
    by_cases h : k1 = k
    · simp only [aupd, if_pos h, materialize, List.map_cons]
      rw [show (some l1).getD [] = l1 from rfl]
      rw [create_list_snoc l1 (idx, v) n]
      rfl
    · rw [show aupd k (fun o => o.getD [] ++ [(idx, v)]) ((k1, l1) :: rest)
          = (k1, l1) :: aupd k (fun o => o.getD [] ++ [(idx, v)]) rest from by
        rw [aupd, if_neg h]]
      rw [materialize_cons, materialize_cons, ih]
      rw [show aupd k (fun o => (o.getD (List.replicate n none)).set idx (some v))
            ((k1, create_list_from_indices l1 n) :: materialize rest n)
          = (k1, create_list_from_indices l1 n)
              :: aupd k (fun o => (o.getD (List.replicate n none)).set idx (some v))
                (materialize rest n) from by
        rw [aupd, if_neg h]]

theorem setEdgeAttrs_materialize (idx : Nat) (r : List (String × V)) :
    ∀ (acc : List (String × List (Nat × V))) (g : PyGraph V),
      g.eattrs = materialize acc g.edges.length →
      g.setEdgeAttrs idx r
        = { g with eattrs := materialize (accRecord acc idx r) g.edges.length } := by
  induction r with
  | nil =>
    intro acc g hg
    show g = _
    rw [show accRecord acc idx ([] : List (String × V)) = acc from rfl, ← hg]
  | cons kv rest ih =>
    intro acc g hg
    have hstep : g.setEdgeAttr idx kv.1 kv.2
        = { g with eattrs := materialize (aupd kv.1 (fun o => o.getD [] ++ [(idx, kv.2)]) acc) g.edges.length } := by
      rw [PyGraph.setEdgeAttr]
      rw [materialize_aupd_append, ← hg]
    show (g.setEdgeAttr idx kv.1 kv.2).setEdgeAttrs idx rest = _
    rw [hstep, accRecord_cons]
    exact ih _ _ rfl

theorem vertex_insert_step (directed : Bool) (baseV : List (String × List (Option V)))
    (nbase : Nat) (na : String) (gen : UniqueIdGen (Option V)) (eL : List (Nat × Nat))
    (eacc : List (String × List (Nat × V))) (idx : Nat) (s : V)
    (hle : nbase ≤ gen.keys.length) :
    (if (gen.lookup (some s)).2 = gen.keys.length
     then (((partialAssemble directed baseV nbase na gen eL eacc idx).add_vertices
              1).setVertexAttr gen.keys.length na s, gen.keys.length + 1)
     else (partialAssemble directed baseV nbase na gen eL eacc idx, gen.keys.length))
      = (partialAssemble directed baseV nbase na (gen.lookup (some s)).1 eL eacc idx,
         (gen.lookup (some s)).1.keys.length) := by
  by_cases hmem : (some s) ∈ gen.keys
  · have h2 : (gen.lookup (some s)).1 = gen := by
      unfold UniqueIdGen.lookup
      cases hp : posOf (some s) gen.keys with
      | none =>
        rw [posOf_none_iff] at hp
        exact absurd hmem hp
      | some i => rfl
    have h3 : (gen.lookup (some s)).2 ≠ gen.keys.length := by
      intro hc
      exact ((uig_lookup_fresh_iff gen (some s)).mp hc) hmem
    rw [if_neg h3, h2]
  · have h2 : gen.lookup (some s) = (⟨gen.keys ++ [some s]⟩, gen.keys.length) := by
      unfold UniqueIdGen.lookup
      rw [(posOf_none_iff _ _).mpr hmem]
    rw [h2, if_pos rfl]
    have hmap2 : (baseV.map
          (fun kc => (kc.1, kc.2 ++ List.replicate (gen.keys.length - nbase) none))).map
            (fun kc => (kc.1, kc.2 ++ [none]))
        = baseV.map
            (fun kc => (kc.1, kc.2 ++ List.replicate (gen.keys.length + 1 - nbase) none)) := by
      rw [List.map_map]
      apply List.map_congr_left
      intro kc _
      simp only [Function.comp]
      rw [List.append_assoc, ← List.replicate_succ',
        show gen.keys.length - nbase + 1 = gen.keys.length + 1 - nbase from by omega]
    have hgoal : ((partialAssemble directed baseV nbase na gen eL eacc idx).add_vertices
          1).setVertexAttr gen.keys.length na s
        = partialAssemble directed baseV nbase na ⟨gen.keys ++ [some s]⟩ eL eacc idx := by
      unfold partialAssemble PyGraph.add_vertices PyGraph.setVertexAttr
      simp only
      rw [show (List.replicate 1 (none : Option V)) = [none] from rfl]
      rw [map_second_aupd_const (fun c => c ++ [none]) na gen.keys _, hmap2, aupd_aupd]
      have hfun : (fun (o : Option (List (Option V))) =>
            ((some (gen.keys ++ [none])).getD
              (List.replicate (gen.keys.length + 1) none)).set gen.keys.length (some s))
          = fun _ => gen.keys ++ [some s] := by
        funext o
        rw [Option.getD_some, set_append_len]
      rw [hfun]
      have hlen2 : (gen.keys ++ [some s]).length = gen.keys.length + 1 := by simp
      rw [hlen2]
    rw [hgoal]
    simp

theorem partialAssemble_eq_batchFinish (directed : Bool)
    (baseV : List (String × List (Option V))) (nbase : Nat) (na : String)
    (gen : UniqueIdGen (Option V)) (eL : List (Nat × Nat))
    (eacc : List (String × List (Nat × V))) (idx : Nat)
    (hle : nbase ≤ gen.keys.length)
    (hname : alookup na baseV = some (gen.keys.take nbase)) :
    partialAssemble directed baseV nbase na gen eL eacc idx
      = batchFinish directed baseV nbase na (gen, eL, eacc, idx) := by
  simp only [batchFinish, partialAssemble]
  by_cases h : nbase < gen.keys.length
  · rw [if_pos h]
  · rw [if_neg h]
    have hlen : gen.keys.length = nbase := by omega
    have htake : gen.keys.take nbase = gen.keys :=
      List.take_of_length_le (by omega)
    have hz : gen.keys.length - nbase = 0 := by omega
    rw [hz]
    have hmap : baseV.map (fun kc => (kc.1, kc.2 ++ List.replicate 0 none)) = baseV := by
      simp
    rw [hmap]
    have hup : aupd na (fun _ => gen.keys) baseV = baseV := by
      apply aupd_self
      rw [hname, htake]
    rw [hup, hlen]

theorem uig_lookup_take {K : Type} [DecidableEq K] (gen : UniqueIdGen K) (k : K) (n : Nat)
    (hn : n ≤ gen.keys.length) :
    (gen.lookup k).1.keys.take n = gen.keys.take n ∧ n ≤ (gen.lookup k).1.keys.length := by
  rw [uig_lookup_keys]
  unfold seenInsert
  by_cases h : k ∈ gen.keys
  · simp [h, hn]
  · rw [if_neg h]
    constructor
    · exact List.take_append_of_le_length hn
    · simp
      omega

theorem iterEdges_eq_batchEdges (efk_src efk_dest na : String) (directed : Bool)
    (rs : List (List (String × V))) :
    ∀ (idx : Nat) (gen : UniqueIdGen (Option V)) (eL : List (Nat × Nat))
      (eacc : List (String × List (Nat × V))) (baseV : List (String × List (Option V)))
      (nbase : Nat),
      nbase ≤ gen.keys.length →
      alookup na baseV = some (gen.keys.take nbase) →
      (∀ kl ∈ eacc, ∀ p ∈ kl.2, p.1 < idx) →
      eL.length = idx →
      iterEdges efk_src efk_dest na rs idx gen gen.keys.length
          (partialAssemble directed baseV nbase na gen eL eacc idx)
        = (batchEdges efk_src efk_dest rs idx gen eL eacc).map
            (batchFinish directed baseV nbase na) := by
  induction rs with
  | nil =>
    intro idx gen eL eacc baseV nbase hle hname hacc hlen
    rw [iterEdges, batchEdges]
    rw [partialAssemble_eq_batchFinish directed baseV nbase na gen eL eacc idx hle hname]
    rfl
  | cons r rest ih =>
    intro idx gen eL eacc baseV nbase hle hname hacc hlen
    cases hs : alookup efk_src r with
    | none =>
      simp only [iterEdges, batchEdges, hs]
      rfl
    | some s =>
      cases ht : alookup efk_dest r with
      | none =>
        simp only [iterEdges, batchEdges, hs, ht]
        rfl
      | some t =>
        simp only [iterEdges, batchEdges, hs, ht]
        rw [vertex_insert_step directed baseV nbase na gen eL eacc idx s hle]
        have hle1 : nbase ≤ (gen.lookup (some s)).1.keys.length :=
          (uig_lookup_take gen (some s) nbase hle).2
        rw [vertex_insert_step directed baseV nbase na (gen.lookup (some s)).1 eL eacc
          idx t hle1]
        have hle2 : nbase ≤ ((gen.lookup (some s)).1.lookup (some t)).1.keys.length :=
          (uig_lookup_take (gen.lookup (some s)).1 (some t) nbase hle1).2
        have hname2 : alookup na baseV
            = some (((gen.lookup (some s)).1.lookup (some t)).1.keys.take nbase) := by
          rw [hname, (uig_lookup_take (gen.lookup (some s)).1 (some t) nbase hle1).1,
            (uig_lookup_take gen (some s) nbase hle).1]
        have hacc2 : ∀ kl ∈ accRecord eacc idx r, ∀ p ∈ kl.2, p.1 < idx + 1 := by
          intro kl hkl p hp
          have hb := accRecord_bound idx r eacc
            (fun kl h p hp => le_of_lt (hacc kl h p hp)) kl hkl p hp
          omega
        have hlen2 : (eL ++ [((gen.lookup (some s)).2,
            ((gen.lookup (some s)).1.lookup (some t)).2)]).length = idx + 1 := by
          simp [hlen]
        have hedge : ((partialAssemble directed baseV nbase na
              ((gen.lookup (some s)).1.lookup (some t)).1 eL eacc idx).add_edge
                ((gen.lookup (some s)).2, ((gen.lookup (some s)).1.lookup (some t)).2)
              ).setEdgeAttrs idx r
            = partialAssemble directed baseV nbase na
                ((gen.lookup (some s)).1.lookup (some t)).1
                (eL ++ [((gen.lookup (some s)).2,
                  ((gen.lookup (some s)).1.lookup (some t)).2)])
                (accRecord eacc idx r) (idx + 1) := by
          have hmat : (materialize eacc idx).map (fun kc => (kc.1, kc.2 ++ [none]))
              = materialize eacc (idx + 1) := (materialize_succ eacc idx hacc).symm
          rw [partialAssemble, PyGraph.add_edge]
          simp only
          rw [hmat]
          have hge : (eL ++ [((gen.lookup (some s)).2,
              ((gen.lookup (some s)).1.lookup (some t)).2)]).length = idx + 1 := hlen2
          have := setEdgeAttrs_materialize idx r eacc
            (⟨((gen.lookup (some s)).1.lookup (some t)).1.keys.length, directed,
              eL ++ [((gen.lookup (some s)).2, ((gen.lookup (some s)).1.lookup (some t)).2)],
              aupd na (fun _ => ((gen.lookup (some s)).1.lookup (some t)).1.keys)
                (baseV.map (fun kc => (kc.1, kc.2 ++ List.replicate
                  (((gen.lookup (some s)).1.lookup (some t)).1.keys.length - nbase) none))),
              materialize eacc (idx + 1)⟩ : PyGraph V)
            (by simp only; rw [hge])
          rw [this]
          simp only [partialAssemble]
          rw [hge]
        rw [hedge]
        exact ih (idx + 1) ((gen.lookup (some s)).1.lookup (some t)).1
          (eL ++ [((gen.lookup (some s)).2, ((gen.lookup (some s)).1.lookup (some t)).2)])
          (accRecord eacc idx r) baseV nbase hle2 hname2 hacc2 hlen2

theorem vertexPhase_ok_props (vertices : Option (List (List (String × V)))) (na : String)
    (va : List (String × List (Option V))) (n : Nat) (names : List (Option V))
    (h : vertexPhase vertices na = .ok (va, n, names)) :
    names.length = n ∧ alookup na va = some names := by
  simp only [vertexPhase] at h
  split at h
  · exact Except.noConfusion h
  · rename_i names0 hl
    split at h
    · have h' := Except.ok.inj h
      simp only [Prod.mk.injEq] at h'
      obtain ⟨hva, hn, hnames⟩ := h'
      rw [← hva, ← hn, ← hnames]
      refine ⟨?_, hl⟩
      by_cases he : (vertices.getD []).isEmpty
      · rw [if_pos he] at hl
        rw [if_pos he]
        simp [alookup] at hl
        rw [hl]
        rfl
      · rw [if_neg he] at hl
        rw [if_neg he]
        rw [alookup_materialize] at hl
        cases hacc : alookup na (accRecords (vertices.getD [])) with
        | none =>
          rw [hacc] at hl
          exact Option.noConfusion hl
        | some l =>
          rw [hacc] at hl
          simp only [Option.map_some'] at hl
          rw [← Option.some.inj hl]
          exact create_list_length l _
    · exact Except.noConfusion h

theorem except_map_eq_bind_pure {ε α β : Type} (m : Except ε α) (f : α → β) :
    m.map f = m >>= (fun a => pure (f a)) := by
  cases m <;> rfl

theorem dictListIter_eq_dictListBatch (vertices : Option (List (List (String × V))))
    (edges : List (List (String × V))) (directed : Bool) (na efk_src efk_dest : String) :
    dictListIter vertices edges directed na efk_src efk_dest
      = dictListBatch vertices edges directed na efk_src efk_dest := by
  unfold dictListIter dictListBatch
  cases hvp : vertexPhase vertices na with
  | error e => rfl
  | ok st =>
    obtain ⟨va, n, names⟩ := st
    obtain ⟨hlen, hname⟩ := vertexPhase_ok_props vertices na va n names hvp
    show iterEdges efk_src efk_dest na edges 0 ⟨names⟩ n ⟨n, directed, [], va, []⟩
        = (batchEdges efk_src efk_dest edges 0 ⟨names⟩ [] []) >>=
            (fun st => pure (batchFinish directed va n na st))
    have hg0 : (⟨n, directed, [], va, []⟩ : PyGraph V)
        = partialAssemble directed va n na ⟨names⟩ [] [] 0 := by
      unfold partialAssemble
      rw [show (⟨names⟩ : UniqueIdGen (Option V)).keys = names from rfl, hlen]
      rw [show n - n = 0 from by omega]
      have hmap : va.map (fun kc => (kc.1, kc.2 ++ List.replicate 0 none)) = va := by simp
      rw [hmap, aupd_self na names va hname]
      rfl
    have hkeys : n = (⟨names⟩ : UniqueIdGen (Option V)).keys.length := hlen.symm
    rw [hg0]
    rw [show iterEdges efk_src efk_dest na edges 0 ⟨names⟩ n
          (partialAssemble directed va n na ⟨names⟩ [] [] 0)
        = iterEdges efk_src efk_dest na edges 0 ⟨names⟩
            (⟨names⟩ : UniqueIdGen (Option V)).keys.length
            (partialAssemble directed va n na ⟨names⟩ [] [] 0) from by rw [← hkeys]]
    rw [iterEdges_eq_batchEdges efk_src efk_dest na directed edges 0 ⟨names⟩ [] [] va n
      (by rw [← hkeys]) (by rw [hname]; congr 1; rw [List.take_of_length_le (by omega)])
      (by intro kl hkl; simp at hkl) rfl]
    exact except_map_eq_bind_pure _ _

/-- **C1.** `Graph.DictList` called with `iterative=True` and with
`iterative=False` on the same vertex/edge record streams and settings
returns equal graphs: same vertex count, same first-seen vertex ordering
(name column), same edge list, and identical vertex and edge attribute
columns — and the same error on erroneous input. -/
theorem dictlist_batch_iterative_equiv (vertices : Option (List (List (String × V))))
    (edges : List (List (String × V))) (directed : Bool)
    (na : String) (efks : String × String) :
    DictList vertices edges directed na efks true
      = DictList vertices edges directed na efks false := by
  simp only [DictList, if_true, Bool.false_eq_true, if_false]
  exact dictListIter_eq_dictListBatch vertices edges directed na efks.1 efks.2

/-! ## Claim C5: edge record keys and attribute columns -/

theorem batchEdges_acc (efk_src efk_dest : String) (rs : List (List (String × V))) :
    ∀ idx gen eL acc st,
      batchEdges efk_src efk_dest rs idx gen eL acc = .ok st →
      st.2.2.1 = (rs.enumFrom idx).foldl (fun a ir => accRecord a ir.1 ir.2) acc ∧
      st.2.2.2 = idx + rs.length := by
  induction rs with
  | nil =>
    intro idx gen eL acc st h
    rw [batchEdges] at h
    cases h
    exact ⟨rfl, rfl⟩
  | cons r rest ih =>
    intro idx gen eL acc st h
    rw [batchEdges] at h
    split at h
    · exact Except.noConfusion h
    · split at h
      · exact Except.noConfusion h
      · obtain ⟨h1, h2⟩ := ih _ _ _ _ _ h
        constructor
        · rw [h1, List.enumFrom_cons]
          rfl
        · rw [h2]
          simp only [List.length_cons]
          omega

theorem batchFinish_eattrs (directed : Bool) (va : List (String × List (Option V)))
    (n : Nat) (na : String)
    (st : UniqueIdGen (Option V) × List (Nat × Nat) × List (String × List (Nat × V)) × Nat) :
    (batchFinish directed va n na st).eattrs = materialize st.2.2.1 st.2.2.2 := rfl

/-- C5 counterexample: on the record `recACW = {source: a, target: c, w: 1}`
the constructed graph carries `"source"` and `"target"` as edge attribute
columns holding the endpoint names, contradicting the claim that only
non-endpoint keys become edge attributes. -/
theorem endpoint_keys_stored_counterexample :
    DictList (V := String) none [recACW] false "name" ("source", "target") false
      = .ok dlCEGraph ∧
    alookup "source" dlCEGraph.eattrs = some [some "a"] ∧
    alookup "target" dlCEGraph.eattrs = some [some "c"] := by
  refine ⟨by decide, by decide, by decide⟩

/-- **C5 (amended).** Every key of each edge record consumed by
`Graph.DictList` — including the two endpoint foreign keys — becomes an
edge attribute column, in both batch and iterative mode: a name is a
column exactly when some record carries it, and the column lists each
record's value under that key in record order (null when absent).  The
endpoint keys additionally resolve the edge's source and target ids. -/
theorem edge_record_keys_become_columns (vertices : Option (List (List (String × V))))
    (edges : List (List (String × V))) (directed : Bool) (na efk_src efk_dest : String)
    (iterative : Bool) (g : PyGraph V)
    (hkeys : ∀ r ∈ edges, (r.map Prod.fst).Nodup)
    (hok : DictList vertices edges directed na (efk_src, efk_dest) iterative = .ok g) :
    ∀ k, alookup k g.eattrs
        = if (edges.map (fun r => alookup k r)).any (fun o => o.isSome)
          then some (edges.map (fun r => alookup k r))
          else none := by
  intro k
  have hok' : dictListBatch vertices edges directed na efk_src efk_dest = .ok g := by
    cases iterative with
    | false => simpa [DictList] using hok
    | true =>
      rw [← dictListIter_eq_dictListBatch]
      simpa [DictList] using hok
  unfold dictListBatch at hok'
  cases hvp : vertexPhase vertices na with
  | error e =>
    rw [hvp, except_bind_error] at hok'
    exact Except.noConfusion hok'
  | ok stv =>
    obtain ⟨va, n, names⟩ := stv
    rw [hvp, except_bind_ok] at hok'
    have hok2 : (batchEdges efk_src efk_dest edges 0 ⟨names⟩ [] [] >>=
        fun st => pure (batchFinish directed va n na st)) = Except.ok g := hok'
    cases hbe : batchEdges efk_src efk_dest edges 0 ⟨names⟩ [] [] with
    | error e =>
      rw [hbe, except_bind_error] at hok2
      exact Except.noConfusion hok2
    | ok st =>
      rw [hbe, except_bind_ok] at hok2
      have hg : g = batchFinish directed va n na st := (Except.ok.inj hok2).symm
      obtain ⟨hacc, hm⟩ := batchEdges_acc efk_src efk_dest edges 0 ⟨names⟩ [] [] st hbe
      have haccz : st.2.2.1 = accRecords edges := by
        rw [hacc]
        rfl
      have hmz : st.2.2.2 = edges.length := by
        rw [hm]
        exact Nat.zero_add _
      rw [hg, batchFinish_eattrs, haccz, hmz]
      exact accRecords_column edges hkeys k

/-- Witness for C5's amended statement at the concrete record `recACW`:
the `"source"` column exists and lists the record's endpoint name. -/
theorem edge_record_keys_become_columns_witness :
    alookup "source" dlCEGraph.eattrs
      = if (([recACW]).map (fun r => alookup "source" r)).any (fun o => o.isSome)
        then some (([recACW]).map (fun r => alookup "source" r))
        else none :=
  edge_record_keys_become_columns none [recACW] false "name" "source" "target" false
    dlCEGraph (by decide) (by decide) "source"

end Igraph
